import Mathlib

/-!
Verification development for the ReflowMarkdown core
(`src/extension.ts`, `src/reConsts.ts`, plus the earlier revisions of
`extension.ts` sharing the same helpers).

Text is modelled as `List Char` (`Str`); a document buffer is a
`List Str` of lines (no newline characters inside a line).  JavaScript
strings are UTF-16, but every construct involved here is
character-by-character, so code points model them faithfully for the
properties at stake.  JavaScript's `\s` class (and `String.trim`) is
modelled by the ASCII whitespace set below, which agrees with it on all
ASCII input.
-/

namespace Reflow

abbrev Str : Type := List Char

/-- The JavaScript `\s` character class, restricted to ASCII. -/
def wsChar (c : Char) : Bool :=
  c = ' ' || c = '\t' || c = '\n' || c = '\r' || c = '\x0b' || c = '\x0c'

def nwChar (c : Char) : Bool := !(wsChar c)

/-- `String.prototype.trimStart`. -/
def trimL (s : Str) : Str := s.dropWhile wsChar

/-- `String.prototype.trimEnd`. -/
def trimR (s : Str) : Str := (s.reverse.dropWhile wsChar).reverse

/-- `String.prototype.trim`. -/
def trimWs (s : Str) : Str := trimL (trimR s)

/-- A line is blank when its trimmed text is empty (`text.trim() === ""`). -/
def blankL (s : Str) : Bool := (trimWs s).isEmpty

/-- Worker for `splitWs`: `acc` holds the current token reversed. -/
def splitWsAux : Str → Str → List Str
  | [], acc => [acc.reverse]
  | c :: rest, acc =>
    if wsChar c then
      acc.reverse :: splitWsAux (rest.dropWhile wsChar) []
    else
      splitWsAux rest (c :: acc)
  termination_by s _ => s.length
  decreasing_by
    · exact Nat.lt_succ_of_le (List.dropWhile_sublist wsChar).length_le
    · simp [Nat.lt_succ_self]

/-- JavaScript `s.split(/\s+/)`: tokens between maximal whitespace runs,
with an empty token at an end that touches whitespace, and `[""]` for
the empty string. -/
def splitWs (s : Str) : List Str := splitWsAux s []

/-- The whitespace-normalized word sequence of a string: the nonempty
tokens of `splitWs`. -/
def wordsOf (s : Str) : List Str := (splitWs s).filter (fun t => !t.isEmpty)

/-- Canonical word decomposition, used as a proof-friendly companion of
`wordsOf` (they are proved equal below). -/
def wof : Str → List Str
  | [] => []
  | c :: s =>
    if wsChar c then wof s
    else (c :: s.takeWhile nwChar) :: wof (s.dropWhile nwChar)
  termination_by s => s.length
  decreasing_by
    · simp [Nat.lt_succ_self]
    · exact Nat.lt_succ_of_le (List.dropWhile_sublist nwChar).length_le

def joinSp (l : List Str) : Str := List.intercalate [' '] l

/-! ### Structural Line Classifier (`getLineContext`) -/

inductive LType where
  | list
  | bq
  | para
  deriving DecidableEq

/-- `LineContext`: `{type, indent, prefix, content}` from the source,
with the prefix field named `pfx`. -/
structure LineCtx where
  ty : LType
  indent : Str
  pfx : Str
  content : Str
  deriving DecidableEq

def isBullet (c : Char) : Bool := c = '*' || c = '-' || c = '+'

def digitChar (c : Char) : Bool := '0' ≤ c && c ≤ '9'

/-- The `([*\-+]|\d+\.)` marker alternative of the list regex, applied at
the first non-whitespace character; returns the marker and the rest. -/
def listMarker : Str → Option (Str × Str)
  | [] => none
  | c :: cs =>
    if isBullet c then some ([c], cs)
    else if digitChar c then
      match (c :: cs).dropWhile digitChar with
      | '.' :: cs2 => some (((c :: cs).takeWhile digitChar) ++ ['.'], cs2)
      | _ => none
    else none

/-- `text.match(/^(\s*)([*\-+]|\d+\.)\s+(.*)$/)`: needs at least one
whitespace character after the marker; content is the rest after the
maximal whitespace run. -/
def tryList (ind rest : Str) : Option LineCtx :=
  match listMarker rest with
  | some (mk, a :: arest) =>
    if wsChar a then some ⟨.list, ind, mk, (a :: arest).dropWhile wsChar⟩ else none
  | _ => none

/-- `text.match(/^(\s*)(>+)\s*(.*)$/)`. -/
def tryBq (ind rest : Str) : Option LineCtx :=
  match rest with
  | '>' :: _ =>
    some ⟨.bq, ind, rest.takeWhile (· = '>'), (rest.dropWhile (· = '>')).dropWhile wsChar⟩
  | _ => none

/-- `getLineContext` from `src/extension.ts`: list, then blockquote, then
plain paragraph. -/
def getLineContext (s : Str) : LineCtx :=
  let ind := s.takeWhile wsChar
  let rest := s.dropWhile wsChar
  match tryList ind rest with
  | some c => c
  | none =>
    match tryBq ind rest with
    | some c => c
    | none => ⟨.para, ind, [], trimWs s⟩

/-! ### Reflow Engine (`reflowLines`) -/

/-- `context.indent.length + (context.prefix ? context.prefix.length + 1 : 0)`. -/
def pfxLenOf (c : LineCtx) : Nat :=
  c.indent.length + (if c.pfx.isEmpty then 0 else c.pfx.length + 1)

/-- `document.lineAt(i).text`, total on the list model. -/
def lineAt (doc : List Str) (i : Nat) : Str := doc.getD i []

/-- The classified contents of the unit's lines. -/
def contentsOf (doc : List Str) (s e : Nat) : List Str :=
  (List.range' s (e + 1 - s)).map (fun i => (getLineContext (lineAt doc i)).content)

/-- `lines.join(' ').trim()`. -/
def allTextOf (doc : List Str) (s e : Nat) : Str := trimWs (joinSp (contentsOf doc s e))

/-- The greedy fill loop of `reflowLines`: `cur` is `currentLine`; a word
joins when `(currentLine + ' ' + word).length <= effectiveLength`. -/
def wrapWords (eff : Int) : List Str → Str → List Str
  | [], cur => if cur.isEmpty then [] else [cur]
  | wd :: rest, cur =>
    if cur.isEmpty then wrapWords eff rest wd
    else if ((cur.length : Int) + 1 + wd.length ≤ eff) then
      wrapWords eff rest (cur ++ ' ' :: wd)
    else
      cur :: wrapWords eff rest wd

def spacesN (n : Nat) : Str := List.replicate n ' '

/-- The prefix re-attachment step of `reflowLines`. -/
def attachLine (c : LineCtx) (first : Bool) (core : Str) : Str :=
  match c.ty with
  | .list =>
      if first then c.indent ++ c.pfx ++ ' ' :: core
      else c.indent ++ spacesN (c.pfx.length + 1) ++ core
  | .bq => c.indent ++ c.pfx ++ ' ' :: core
  | .para => c.indent ++ core

/-- `reflowLines(document, startLine, endLine, preferredLineLength)` from
`src/extension.ts`. -/
def reflowLines (doc : List Str) (s e w : Nat) : List Str :=
  let ctx := getLineContext (lineAt doc s)
  let words := splitWs (allTextOf doc s e)
  let eff : Int := (w : Int) - (pfxLenOf ctx : Int)
  match wrapWords eff words [] with
  | [] => []
  | c0 :: rest => attachLine ctx true c0 :: rest.map (attachLine ctx false)

/-- The first line's authoritative context in `reflowLines`. -/
def ctxOf (doc : List Str) (s : Nat) : LineCtx := getLineContext (lineAt doc s)

/-- `effectiveLength` in `reflowLines` (may be negative). -/
def effOf (doc : List Str) (s w : Nat) : Int := (w : Int) - (pfxLenOf (ctxOf doc s) : Int)

/-- The wrapped core lines of `reflowLines` before prefix re-attachment. -/
def coresOf (doc : List Str) (s e w : Nat) : List Str :=
  wrapWords (effOf doc s w) (splitWs (allTextOf doc s e)) []

/-! ### A small regular-expression engine (Brzozowski derivatives)

Used to model the anchored regexes of `src/reConsts.ts`.  Laziness or
greediness of JavaScript quantifiers cannot change whether `.test`
succeeds, so plain regular-language matching is a faithful model of
`RE.test(line)` for these anchored patterns. -/

inductive Re where
  | emp
  | eps
  | cls (p : Char → Bool)
  | seq (a b : Re)
  | alt (a b : Re)
  | star (a : Re)

def Re.nullable : Re → Bool
  | .emp => false
  | .eps => true
  | .cls _ => false
  | .seq a b => a.nullable && b.nullable
  | .alt a b => a.nullable || b.nullable
  | .star _ => true

def Re.deriv (c : Char) : Re → Re
  | .emp => .emp
  | .eps => .emp
  | .cls p => if p c then .eps else .emp
  | .seq a b =>
      if a.nullable then .alt (.seq (a.deriv c) b) (b.deriv c)
      else .seq (a.deriv c) b
  | .alt a b => .alt (a.deriv c) (b.deriv c)
  | .star a => .seq (a.deriv c) (.star a)

/-- Whole-string match. -/
def matchRe (r : Re) : Str → Bool
  | [] => r.nullable
  | c :: s => matchRe (r.deriv c) s

def Re.chr (c : Char) : Re := .cls (· = c)

def Re.strLit (s : Str) : Re := s.foldr (fun c r => .seq (.chr c) r) .eps

def Re.opt (a : Re) : Re := .alt .eps a

def Re.plus (a : Re) : Re := .seq a (.star a)

def Re.anyc : Re := .cls (fun _ => true)

def Re.wsc : Re := .cls wsChar

def Re.cat (l : List Re) : Re := l.foldr .seq .eps

/-- `x{0,n}`. -/
def Re.upTo : Nat → Re → Re
  | 0, _ => .eps
  | n + 1, a => .seq (.opt a) (Re.upTo n a)

/-- `x{1,n}`. -/
def Re.oneTo (n : Nat) (a : Re) : Re := .seq a (Re.upTo (n - 1) a)

/-! The regexes of `src/reConsts.ts`.  Each is anchored with `^`; those
without a trailing `$` match a prefix, so a trailing `.*` is appended to
turn `.test` into a whole-string match. -/

/-- `MDX_IMPORT_RE = /^\s*import\s+(?:[^'";]+?\s+from\s+)?['"][^'"]+['"]\s*;?\s*$/` -/
def mdxImportRe : Re :=
  let quote : Re := .cls (fun c => c = '\x27' || c = '"')
  let nonQuote : Re := .cls (fun c => !(c = '\x27' || c = '"'))
  let nonQuoteSemi : Re := .cls (fun c => !(c = '\x27' || c = '"' || c = ';'))
  .cat [.star .wsc, .strLit "import".toList, .plus .wsc,
        .opt (.cat [.plus nonQuoteSemi, .plus .wsc, .strLit "from".toList, .plus .wsc]),
        quote, .plus nonQuote, quote, .star .wsc, .opt (.chr ';'), .star .wsc]

/-- `TRIPLE_COLON_RE = /^\s*:::/` (prefix match). -/
def tripleColonRe : Re :=
  .cat [.star .wsc, .strLit ":::".toList, .star .anyc]

def alphaChar (c : Char) : Bool := ('a' ≤ c && c ≤ 'z') || ('A' ≤ c && c ≤ 'Z')

def alnumDashChar (c : Char) : Bool := alphaChar c || digitChar c || c = '-'

/-- `XML_TAG_ONLY_RE = /^\s*<\/?[a-zA-Z][a-zA-Z0-9\-]*(?:\s[^>]*)?\/?>\s*$/` -/
def xmlTagOnlyRe : Re :=
  .cat [.star .wsc, .chr '<', .opt (.chr '/'), .cls alphaChar, .star (.cls alnumDashChar),
        .opt (.seq .wsc (.star (.cls (· ≠ '>')))), .opt (.chr '/'), .chr '>', .star .wsc]

/-- `HTML_COMMENT_ONLY_RE = /^\s*<!--.*?-->\s*$/` -/
def htmlCommentOnlyRe : Re :=
  .cat [.star .wsc, .strLit "<!--".toList, .star .anyc, .strLit "-->".toList, .star .wsc]

/-- `FOOTNOTE_DEF_RE = /^\s*\[\^?[^\]]+\]:[ \t]+/` (prefix match). -/
def footnoteDefRe : Re :=
  .cat [.star .wsc, .chr '[', .opt (.chr '^'), .plus (.cls (· ≠ ']')), .strLit "]:".toList,
        .plus (.cls (fun c => c = ' ' || c = '\t')), .star .anyc]

/-- `LIST_LINK_ONLY_RE = /^\s*[-*]\s+\[[^\]]*\]\([^)]*\)\.?\s*$/` -/
def listLinkOnlyRe : Re :=
  .cat [.star .wsc, .cls (fun c => c = '-' || c = '*'), .plus .wsc,
        .chr '[', .star (.cls (· ≠ ']')), .chr ']',
        .chr '(', .star (.cls (· ≠ ')')), .chr ')', .opt (.chr '.'), .star .wsc]

/-- `MD_TABLE_SEPARATOR_RE = /^\s*\|?\s*:?-{3,}:?\s*(\|\s*:?-{3,}:?\s*)+\|?\s*$/` -/
def mdTableSeparatorRe : Re :=
  let dashes : Re := .cat [.chr '-', .chr '-', .plus (.chr '-')]
  let seg : Re := .cat [.opt (.chr ':'), dashes, .opt (.chr ':')]
  let grp : Re := .cat [.chr '|', .star .wsc, seg, .star .wsc]
  .cat [.star .wsc, .opt (.chr '|'), .star .wsc, seg, .star .wsc, .plus grp,
        .opt (.chr '|'), .star .wsc]

/-- `MD_TABLE_ROW_RE = /^\s*\|.*\|.*$/` -/
def mdTableRowRe : Re :=
  .cat [.star .wsc, .chr '|', .star .anyc, .chr '|', .star .anyc]

/-- `ATX_HEADING_RE = /^\s{0,3}#{1,6}(?:\s|$)/` (prefix match; the `$`
alternative ends the string there). -/
def atxHeadingRe : Re :=
  .cat [.upTo 3 .wsc, .oneTo 6 (.chr '#'),
        .alt (.seq .wsc (.star .anyc)) .eps]

/-! ### Structural range detectors -/

/-- Ranges are line spans `(startLine, endLine)`, inclusive.  The
character components of the source's `vscode.Range` values (always
column 0 to end-of-line here) carry no information at the line
granularity used by every consumer. -/
abbrev LineRange : Type := Nat × Nat

/-- `findRangeContainingLine`. -/
def findRangeContainingLine (rs : List LineRange) (l : Nat) : Option LineRange :=
  rs.find? (fun r => decide (r.1 ≤ l) && decide (l ≤ r.2))

/-- `rangeOverlapsAny`. -/
def rangeOverlapsAny (s e : Nat) (rs : List LineRange) : Bool :=
  rs.any (fun r => !(decide (e < r.1) || decide (s > r.2)))

/-- The opening-fence regex `/^\s{0,3}(`{3,}|~{3,})/` of
`getFencedCodeBlockRanges`: returns the fence character and the captured
run length. -/
def fenceOpen (s : Str) : Option (Char × Nat) :=
  let ind := s.takeWhile wsChar
  if ind.length ≤ 3 then
    match s.dropWhile wsChar with
    | c :: rest =>
      if c = '\x60' || c = '~' then
        let run := 1 + (rest.takeWhile (· = c)).length
        if 3 ≤ run then some (c, run) else none
      else none
    | [] => none
  else none

/-- The closing-fence regex `` new RegExp(`^\\s{0,3}${fenceChar}{${fenceLen},}\\s*$`) ``. -/
def fenceClose (c : Char) (n : Nat) (s : Str) : Bool :=
  let ind := s.takeWhile wsChar
  let rest := s.dropWhile wsChar
  let run := rest.takeWhile (· = c)
  decide (ind.length ≤ 3) && decide (n ≤ run.length) && (rest.drop run.length).all wsChar

/-- Scanner state of `getFencedCodeBlockRanges`: `some (blockStart,
fenceChar, fenceLen)` while inside a block. -/
def fencedAux (doc : List Str) : Nat → Option (Nat × Char × Nat) → List LineRange
  | i, st =>
    if _h : i < doc.length then
      match st with
      | none =>
        match fenceOpen (lineAt doc i) with
        | some (c, n) => fencedAux doc (i + 1) (some (i, c, n))
        | none => fencedAux doc (i + 1) none
      | some (b, c, n) =>
        if fenceClose c n (lineAt doc i) then (b, i) :: fencedAux doc (i + 1) none
        else fencedAux doc (i + 1) (some (b, c, n))
    else
      match st with
      | some (b, _, _) => [(b, doc.length - 1)]
      | none => []
  termination_by i _ => doc.length - i

/-- `getFencedCodeBlockRanges` from `src/extension.ts`. -/
def getFencedCodeBlockRanges (doc : List Str) : List LineRange := fencedAux doc 0 none

/-- The per-line character scan of `getJsxExpressionRanges`: arguments are
the remaining text, `inInline`, `inlineTickRun`, `depth`, `lineInside`;
`Math.max(0, depth - 1)` is natural subtraction. -/
def scanChars : Str → Bool → Nat → Nat → Bool → Nat × Bool
  | [], _, _, d, li => (d, li)
  | c :: rest, inI, tr, d, li =>
    if c = '\x60' then
      let run := 1 + (rest.takeWhile (· = '\x60')).length
      let rest2 := rest.drop (run - 1)
      if !inI then scanChars rest2 true run d li
      else if tr ≤ run then scanChars rest2 false 0 d li
      else scanChars rest2 inI tr d li
    else if inI then scanChars rest inI tr d li
    else if c = '\x7b' then scanChars rest inI tr (d + 1) true
    else if c = '\x7d' then scanChars rest inI tr (d - 1) li
    else scanChars rest inI tr d li
  termination_by s _ _ _ _ => s.length
  decreasing_by
    all_goals simp only [List.length_cons, List.length_drop]
    all_goals omega

/-- Line loop of `getJsxExpressionRanges`: `cur` is `currentStart`. -/
def jsxAux (doc : List Str) (fenced : List LineRange) : Nat → Nat → Option Nat → List LineRange
  | i, depth, cur =>
    if _h : i < doc.length then
      if (findRangeContainingLine fenced i).isSome then
        match cur with
        | some c => (c, i - 1) :: jsxAux doc fenced (i + 1) depth none
        | none => jsxAux doc fenced (i + 1) depth none
      else
        let r := scanChars (lineAt doc i) false 0 depth (decide (0 < depth))
        if r.2 then
          jsxAux doc fenced (i + 1) r.1 (some (cur.getD i))
        else
          match cur with
          | some c => (c, i - 1) :: jsxAux doc fenced (i + 1) r.1 none
          | none => jsxAux doc fenced (i + 1) r.1 none
    else
      match cur with
      | some c => [(c, doc.length - 1)]
      | none => []
  termination_by i _ _ => doc.length - i

/-- `getJsxExpressionRanges` from `src/extension.ts`. -/
def getJsxExpressionRanges (doc : List Str) (fenced : List LineRange) : List LineRange :=
  jsxAux doc fenced 0 0 none

/-! ### Front Matter Detector (`getFrontMatterRange`)

This helper is imported from the missing `testable.ts` by the final
`extension.ts`; its body is taken verbatim from the earlier revision of
`extension.ts` in the sources (`src/unnamed/part_002`, lines 17-41). -/

/-- First line index whose trimmed text is nonempty, or `doc.length`. -/
def firstNonBlank (doc : List Str) : Nat → Nat
  | i =>
    if _h : i < doc.length then
      if blankL (lineAt doc i) then firstNonBlank doc (i + 1) else i
    else i
  termination_by i => doc.length - i

/-- Scan for the front-matter closing delimiter. -/
def fmFindClose (doc : List Str) (closers : List Str) : Nat → Option Nat
  | i =>
    if _h : i < doc.length then
      if closers.contains (trimWs (lineAt doc i)) then some i
      else fmFindClose doc closers (i + 1)
    else none
  termination_by i => doc.length - i

/-- `getFrontMatterRange` (YAML `---`...`---`/`...`, TOML `+++`...`+++`;
unterminated front matter extends to the last line). -/
def getFrontMatterRange (doc : List Str) : Option LineRange :=
  if doc.length = 0 then none
  else
    let first := firstNonBlank doc 0
    if _h : first < doc.length then
      let t := trimWs (lineAt doc first)
      let isYaml := t = "---".toList
      let isToml := t = "+++".toList
      if isYaml || isToml then
        let closers : List Str := if isYaml then ["---".toList, "...".toList] else ["+++".toList]
        match fmFindClose doc closers (first + 1) with
        | some i => some (first, i)
        | none => some (first, doc.length - 1)
      else none
    else none

/-! ### Unit Extent Resolver

Modelled from the spec: `getStartLine`/`getEndLine` live in the missing
`testable.ts`.  Per spec §4.5, the resolver walks backward/forward from
the seed over contiguous non-blank lines, stopping at a blank line or a
document edge; a blank seed line resolves to itself. -/

/-- Modelled from the spec: backward walk of `getStartLine` over
non-blank predecessor lines. -/
def walkUp (doc : List Str) : Nat → Nat
  | 0 => 0
  | k + 1 => if blankL (lineAt doc k) then k + 1 else walkUp doc k

/-- Modelled from the spec: forward walk of `getEndLine` over non-blank
successor lines, bounded by `maxLine`. -/
def walkDown (doc : List Str) (maxL : Nat) : Nat → Nat
  | i =>
    if h : i < maxL then
      if blankL (lineAt doc (i + 1)) then i else walkDown doc maxL (i + 1)
    else i
  termination_by i => maxL - i

/-- Modelled from the spec: `getStartLine(lineAtFunc, midLine).lineNumber`. -/
def unitStart (doc : List Str) (i : Nat) : Nat :=
  if blankL (lineAt doc i) then i else walkUp doc i

/-- Modelled from the spec: `getEndLine(lineAtFunc, midLine, maxLineNum,
o).lineNumber`. -/
def unitEnd (doc : List Str) (maxL i : Nat) : Nat :=
  if blankL (lineAt doc i) then i else walkDown doc maxL i

/-- `[s, e]` is a maximal block of consecutive non-blank lines: the
paragraph unit that the resolver walks to from any seed line inside it. -/
def isUnitB (doc : List Str) (s e : Nat) : Bool :=
  decide (s ≤ e) && decide (e + 1 ≤ doc.length) &&
  ((List.range' s (e + 1 - s)).all (fun l => !(blankL (lineAt doc l)))) &&
  (decide (s = 0) || blankL (lineAt doc (s - 1))) &&
  (decide (e = doc.length - 1) || blankL (lineAt doc (e + 1)))

/-! ### Skip-Policy Evaluator (`shouldSkipParagraph`) and helpers -/

def paragraphHasMdxImport (doc : List Str) (s e : Nat) : Bool :=
  (List.range' s (e + 1 - s)).any (fun i => matchRe mdxImportRe (lineAt doc i))

def paragraphHasAtxHeading (doc : List Str) (s e : Nat) : Bool :=
  (List.range' s (e + 1 - s)).any (fun i => matchRe atxHeadingRe (lineAt doc i))

def paragraphHasFootnoteDef (doc : List Str) (s e : Nat) : Bool :=
  (List.range' s (e + 1 - s)).any (fun i => matchRe footnoteDefRe (lineAt doc i))

def paragraphHasListLinkOnly (doc : List Str) (s e : Nat) : Bool :=
  (List.range' s (e + 1 - s)).any (fun i => matchRe listLinkOnlyRe (lineAt doc i))

def paragraphHasMarkdownTable (doc : List Str) (s e : Nat) : Bool :=
  (List.range' s (e + 1 - s)).any
    (fun i => matchRe mdTableSeparatorRe (lineAt doc i) || matchRe mdTableRowRe (lineAt doc i))

def lineStartsWithTripleColon (s : Str) : Bool := matchRe tripleColonRe s

def lineIsXmlTagOnly (s : Str) : Bool := matchRe xmlTagOnlyRe s || matchRe htmlCommentOnlyRe s

/-- Settings relevant to the modelled core (`wrapLongLinks` and
`resizeHeaderDashLines` play no role in the claims). -/
structure Settings where
  preferredLineLength : Nat
  doubleSpaceBetweenSentences : Bool := false
  neverReflowFirstParagraph : Bool := false

/-- Skip blank and MDX-import lines (loop of
`getFirstContentParagraphRange`). -/
def skipBlankImports (doc : List Str) : Nat → Nat
  | i =>
    if _h : i < doc.length then
      if blankL (lineAt doc i) || matchRe mdxImportRe (lineAt doc i) then
        skipBlankImports doc (i + 1)
      else i
    else i
  termination_by i => doc.length - i

/-- `getFirstContentParagraphRange` from `src/extension.ts` (extent
resolution spec-modelled, see above). -/
def getFirstContentParagraphRange (doc : List Str) : Option LineRange :=
  let start := match getFrontMatterRange doc with
    | some f => f.2 + 1
    | none => 0
  let i := skipBlankImports doc start
  if i < doc.length then some (unitStart doc i, unitEnd doc (doc.length - 1) i)
  else none

/-- `shouldSkipParagraph` from `src/extension.ts` (the early-return chain
as nested conditionals). -/
def shouldSkipParagraph (doc : List Str) (ls le : Nat) (fenced jsx : List LineRange)
    (fm : Option LineRange) (st : Settings) : Bool :=
  if (match fm with
      | some f => !(decide (le < f.1) || decide (ls > f.2))
      | none => false) then true
  else if rangeOverlapsAny ls le fenced || rangeOverlapsAny ls le jsx then true
  else if paragraphHasAtxHeading doc ls le then true
  else if paragraphHasMdxImport doc ls le then true
  else if paragraphHasFootnoteDef doc ls le then true
  else if paragraphHasMarkdownTable doc ls le then true
  else if paragraphHasListLinkOnly doc ls le then true
  else if st.neverReflowFirstParagraph &&
      (match getFirstContentParagraphRange doc with
       | some f => !(decide (le < f.1) || decide (ls > f.2))
       | none => false) then true
  else if decide (ls = le) && lineStartsWithTripleColon (lineAt doc ls) then true
  else if decide (ls = le) && lineIsXmlTagOnly (lineAt doc ls) then true
  else false

/-! ### Edit Planner (`computeReflowEdits`)

`getReflowedText` lives in the missing `testable.ts`; the planner is
parametric in it (`rt`, taking the resolved extent and the original span
text), so every theorem below holds for the actual implementation. -/

structure Edit where
  s : Nat
  e : Nat
  text : Str
  deriving DecidableEq

/-- `document.getText(rng)` for a full-line span. -/
def originalTextOf (doc : List Str) (s e : Nat) : Str :=
  List.intercalate ['\n'] ((List.range' s (e + 1 - s)).map (lineAt doc))

/-- Loop body of `computeReflowEdits`, fuelled; `none` means the fuel ran
out (never happens from `planFuel`, see `planAux_isSome`). -/
def planAux (doc : List Str) (rt : Nat → Nat → Str → Str) (fm : Option LineRange)
    (fenced jsx : List LineRange) (st : Settings) (hasRange : Bool) (startL endL maxL : Nat) :
    Nat → Nat → Option (List Edit)
  | 0, i => if endL < i then some [] else none
  | fuel + 1, i =>
    if endL < i then some []
    else
        if (match fm with
            | some f => decide (f.1 ≤ i) && decide (i ≤ f.2)
            | none => false) then
          planAux doc rt fm fenced jsx st hasRange startL endL maxL fuel ((fm.getD (0, 0)).2 + 1)
        else match findRangeContainingLine fenced i with
          | some fr => planAux doc rt fm fenced jsx st hasRange startL endL maxL fuel (fr.2 + 1)
          | none =>
            match findRangeContainingLine jsx i with
            | some jr => planAux doc rt fm fenced jsx st hasRange startL endL maxL fuel (jr.2 + 1)
            | none =>
              let ls := unitStart doc i
              let le := unitEnd doc maxL i
              if hasRange && decide (le < startL) then
                planAux doc rt fm fenced jsx st hasRange startL endL maxL fuel (le + 1)
              else if hasRange && decide (endL < ls) then some []
              else if hasRange && (decide (ls < startL) || decide (endL < le)) then
                planAux doc rt fm fenced jsx st hasRange startL endL maxL fuel (le + 1)
              else if shouldSkipParagraph doc ls le fenced jsx fm st then
                planAux doc rt fm fenced jsx st hasRange startL endL maxL fuel (le + 1)
              else
                let original := originalTextOf doc ls le
                let reflowed := rt ls le original
                match planAux doc rt fm fenced jsx st hasRange startL endL maxL fuel (le + 1) with
                | some es => some (if original ≠ reflowed then ⟨ls, le, reflowed⟩ :: es else es)
                | none => none

/-- `computeReflowEdits(document, targetRange, settings)` from
`src/extension.ts`, with the reflow text function `rt` abstracted.  The
empty-document case mirrors the JavaScript loop never running when
`lineCount - 1 < 0`. -/
def computeReflowEdits (doc : List Str) (rt : Nat → Nat → Str → Str)
    (targetRange : Option LineRange) (st : Settings) : List Edit :=
  if doc.length = 0 then []
  else
    let fm := getFrontMatterRange doc
    let fenced := getFencedCodeBlockRanges doc
    let jsx := getJsxExpressionRanges doc fenced
    let hasRange := targetRange.isSome
    let startL := match targetRange with | some r => r.1 | none => 0
    let endL := match targetRange with | some r => r.2 | none => doc.length - 1
    let i0 := match targetRange, fm with
      | none, some f => max startL (f.2 + 1)
      | _, _ => startL
    if hasRange && (match fm, targetRange with
        | some f, some r => decide (f.1 ≤ r.1) && decide (r.2 ≤ f.2)
        | _, _ => false) then []
    else
      (planAux doc rt fm fenced jsx st hasRange startL endL (doc.length - 1)
        (endL + 1 - i0) i0).getD []

/-! ## Lemmas

### Word-level machinery -/

theorem takeWhile_append_stop (p : Char → Bool) (a b : Str) (q : Char) (hq : p q = false) :
    ((a ++ q :: b).takeWhile p) = a.takeWhile p := by
  induction a with
  | nil => simp [List.takeWhile_cons, hq]
  | cons c a ih =>
    by_cases hc : p c <;> simp [List.takeWhile_cons, hc, ih]

theorem dropWhile_append_stop (p : Char → Bool) (a b : Str) (q : Char) (hq : p q = false) :
    ((a ++ q :: b).dropWhile p) = a.dropWhile p ++ q :: b := by
  induction a with
  | nil => simp [List.dropWhile_cons, hq]
  | cons c a ih =>
    by_cases hc : p c <;> simp [List.dropWhile_cons, hc, ih]

theorem takeWhile_append_fail (p : Char → Bool) (a t : Str) (ht : ∀ c ∈ t, p c = false) :
    ((a ++ t).takeWhile p) = a.takeWhile p := by
  cases t with
  | nil => simp
  | cons q b =>
    exact takeWhile_append_stop p a b q (ht q (by simp))

theorem dropWhile_append_fail (p : Char → Bool) (a t : Str) (ht : ∀ c ∈ t, p c = false) :
    ((a ++ t).dropWhile p) = a.dropWhile p ++ t := by
  cases t with
  | nil => simp
  | cons q b =>
    exact dropWhile_append_stop p a b q (ht q (by simp))

theorem head_dropWhile_not (p : Char → Bool) (l : Str) :
    ∀ c, (l.dropWhile p).head? = some c → p c = false := by
  induction l with
  | nil => simp [List.dropWhile]
  | cons d l ih =>
    intro c hc
    by_cases hd : p d
    · exact ih c (by simpa [List.dropWhile_cons, hd] using hc)
    · simp [List.dropWhile_cons, hd] at hc
      simpa [← hc] using hd

/-- Unfolding of `splitWs` into the first token and the recursive rest. -/
theorem splitWsAux_eq (s acc : Str) :
    splitWsAux s acc =
      (acc.reverse ++ s.takeWhile nwChar) ::
        (match s.dropWhile nwChar with
         | [] => ([] : List Str)
         | _ :: r => splitWsAux (r.dropWhile wsChar) []) := by
  induction s generalizing acc with
  | nil => simp [splitWsAux]
  | cons c s ih =>
    by_cases hc : wsChar c
    · have hnw : nwChar c = false := by simp [nwChar, hc]
      simp [splitWsAux, hc, List.takeWhile_cons, List.dropWhile_cons, hnw]
    · have hnw : nwChar c = true := by simp [nwChar, hc]
      simp [splitWsAux, hc, List.takeWhile_cons, List.dropWhile_cons, hnw, ih]

theorem splitWs_eq (s : Str) :
    splitWs s =
      (s.takeWhile nwChar) ::
        (match s.dropWhile nwChar with
         | [] => ([] : List Str)
         | _ :: r => splitWs (r.dropWhile wsChar)) := by
  simpa [splitWs] using splitWsAux_eq s []

theorem wof_nil : wof [] = [] := by simp [wof]

theorem wof_cons_ws {c : Char} (s : Str) (hc : wsChar c = true) : wof (c :: s) = wof s := by
  simp [wof, hc]

theorem wof_cons_nw {c : Char} (s : Str) (hc : wsChar c = false) :
    wof (c :: s) = (c :: s.takeWhile nwChar) :: wof (s.dropWhile nwChar) := by
  simp [wof, hc]

theorem wof_dropWhile_ws (s : Str) : wof (s.dropWhile wsChar) = wof s := by
  induction s with
  | nil => simp
  | cons c s ih =>
    by_cases hc : wsChar c
    · rw [List.dropWhile_cons_of_pos hc, ih, wof_cons_ws s hc]
    · rw [List.dropWhile_cons_of_neg hc]

theorem wof_all_ws (t : Str) (ht : ∀ c ∈ t, wsChar c = true) : wof t = [] := by
  induction t with
  | nil => exact wof_nil
  | cons c s ih =>
    rw [wof_cons_ws s (ht c (by simp))]
    exact ih (fun d hd => ht d (by simp [hd]))

theorem wof_mem (s : Str) : ∀ t ∈ wof s, t ≠ [] ∧ ∀ c ∈ t, nwChar c = true := by
  induction s using wof.induct with
  | case1 => simp [wof_nil]
  | case2 c s hc ih => rw [wof_cons_ws s hc]; exact ih
  | case3 c s hc ih =>
    rw [wof_cons_nw s (by simpa using hc)]
    intro t ht
    rcases List.mem_cons.mp ht with h | h
    · subst h
      refine ⟨by simp, ?_⟩
      intro d hd
      rcases List.mem_cons.mp hd with h | h
      · subst h; simp [nwChar, hc]
      · exact List.mem_takeWhile_imp h
    · exact ih t h

theorem wof_single (t : Str) (h1 : t ≠ []) (h2 : ∀ c ∈ t, nwChar c = true) : wof t = [t] := by
  cases t with
  | nil => exact absurd rfl h1
  | cons c s =>
    have hc : wsChar c = false := by
      have := h2 c (by simp)
      simpa [nwChar] using this
    rw [wof_cons_nw s hc]
    have htake : s.takeWhile nwChar = s :=
      List.takeWhile_eq_self_iff.mpr (fun d hd => h2 d (by simp [hd]))
    have hdrop : s.dropWhile nwChar = [] :=
      List.dropWhile_eq_nil_iff.mpr (fun d hd => h2 d (by simp [hd]))
    rw [htake, hdrop, wof_nil]

theorem wof_append_sep (x y : Str) : wof (x ++ ' ' :: y) = wof x ++ wof y := by
  induction x using wof.induct with
  | case1 =>
    rw [List.nil_append, wof_cons_ws y (by simp [wsChar]), wof_nil, List.nil_append]
  | case2 c s hc ih =>
    rw [List.cons_append, wof_cons_ws _ hc, wof_cons_ws s hc, ih]
  | case3 c s hc ih =>
    have hc' : wsChar c = false := by simpa using hc
    have hsp : nwChar ' ' = false := by simp [nwChar, wsChar]
    rw [List.cons_append, wof_cons_nw _ hc', wof_cons_nw s hc',
      takeWhile_append_stop nwChar s y ' ' hsp,
      dropWhile_append_stop nwChar s y ' ' hsp, ih, List.cons_append]

theorem wof_append_ws (x t : Str) (ht : ∀ c ∈ t, wsChar c = true) : wof (x ++ t) = wof x := by
  induction x using wof.induct with
  | case1 => rw [List.nil_append, wof_nil]; exact wof_all_ws t ht
  | case2 c s hc ih => rw [List.cons_append, wof_cons_ws _ hc, wof_cons_ws s hc, ih]
  | case3 c s hc ih =>
    have hc' : wsChar c = false := by simpa using hc
    have ht' : ∀ c ∈ t, nwChar c = false := fun d hd => by simp [nwChar, ht d hd]
    rw [List.cons_append, wof_cons_nw _ hc', wof_cons_nw s hc',
      takeWhile_append_fail nwChar s t ht', dropWhile_append_fail nwChar s t ht', ih]

theorem wof_trimL (s : Str) : wof (trimL s) = wof s := wof_dropWhile_ws s

theorem trimR_decomp (s : Str) :
    ∃ t, s = trimR s ++ t ∧ ∀ c ∈ t, wsChar c = true := by
  refine ⟨(s.reverse.takeWhile wsChar).reverse, ?_, ?_⟩
  · apply List.reverse_injective
    rw [trimR, List.reverse_append, List.reverse_reverse, List.reverse_reverse,
      List.takeWhile_append_dropWhile]
  · intro c hc
    exact List.mem_takeWhile_imp (by simpa using hc)

theorem wof_trimR (s : Str) : wof (trimR s) = wof s := by
  obtain ⟨t, hs, ht⟩ := trimR_decomp s
  conv_rhs => rw [hs]
  rw [wof_append_ws _ t ht]

theorem wof_trim (s : Str) : wof (trimWs s) = wof s := by
  rw [trimWs, wof_trimL, wof_trimR]

theorem wordsOf_eq_wof (s : Str) : wordsOf s = wof s := by
  have H : ∀ n (s : Str), s.length ≤ n → wordsOf s = wof s := by
    intro n
    induction n with
    | zero =>
      intro s hs
      have : s = [] := List.length_eq_zero.mp (Nat.le_zero.mp hs)
      subst this
      simp [wordsOf, splitWs, splitWsAux, wof_nil]
    | succ n ih =>
      intro s hs
      cases s with
      | nil => simp [wordsOf, splitWs, splitWsAux, wof_nil]
      | cons c s' =>
        by_cases hc : wsChar c
        · have hnw : nwChar c = false := by simp [nwChar, hc]
          have h1 : wordsOf (c :: s') = wordsOf (s'.dropWhile wsChar) := by
            unfold wordsOf
            rw [splitWs_eq]
            simp [List.takeWhile_cons, List.dropWhile_cons, hnw]
          rw [h1, ih _ (Nat.le_trans (List.dropWhile_sublist wsChar).length_le
              (Nat.le_of_succ_le_succ hs)),
            wof_dropWhile_ws, wof_cons_ws s' hc]
        · have hnw : nwChar c = true := by simp [nwChar, hc]
          have h1 : splitWs (c :: s') =
              (c :: s'.takeWhile nwChar) ::
                (match s'.dropWhile nwChar with
                 | [] => ([] : List Str)
                 | _ :: r => splitWs (r.dropWhile wsChar)) := by
            rw [splitWs_eq]
            simp [List.takeWhile_cons, List.dropWhile_cons, hnw]
          rw [wof_cons_nw s' (by simpa using hc)]
          cases hd : s'.dropWhile nwChar with
          | nil =>
            unfold wordsOf
            rw [h1, hd, wof_nil]
            simp
          | cons w r =>
            have hw : wsChar w = true := by
              have := head_dropWhile_not nwChar s' w (by simp [hd])
              simpa [nwChar] using this
            have hlen : (r.dropWhile wsChar).length ≤ n := by
              have h2 : (s'.dropWhile nwChar).length ≤ s'.length :=
                (List.dropWhile_sublist nwChar).length_le
              rw [hd] at h2
              simp only [List.length_cons] at h2 hs
              exact Nat.le_trans (List.dropWhile_sublist wsChar).length_le
                (by omega)
            have h3 : wordsOf (c :: s') =
                (c :: s'.takeWhile nwChar) :: wordsOf (r.dropWhile wsChar) := by
              unfold wordsOf
              rw [h1, hd]
              simp
            rw [h3, ih _ hlen, wof_dropWhile_ws, ← wof_cons_ws r hw, ← hd]
  exact H s.length s (Nat.le_refl _)

theorem wordsOf_trim (s : Str) : wordsOf (trimWs s) = wordsOf s := by
  rw [wordsOf_eq_wof, wordsOf_eq_wof, wof_trim]

theorem wordsOf_append_sep (x y : Str) : wordsOf (x ++ ' ' :: y) = wordsOf x ++ wordsOf y := by
  rw [wordsOf_eq_wof, wordsOf_eq_wof, wordsOf_eq_wof, wof_append_sep]

/-! ### Trim and join lemmas -/

theorem trimWs_head_nw (s : Str) : ∀ c, (trimWs s).head? = some c → nwChar c = true := by
  intro c hc
  have := head_dropWhile_not wsChar (trimR s) c hc
  simp [nwChar, this]

theorem getLast_dropWhile_ne_nil (p : Char → Bool) (l : Str) (h : l.dropWhile p ≠ []) :
    (l.dropWhile p).getLast? = l.getLast? := by
  conv_rhs => rw [← List.takeWhile_append_dropWhile (p := p) (l := l)]
  exact (List.getLast?_append_of_ne_nil _ h).symm

theorem trimR_getLast_nw (s : Str) : ∀ c, (trimR s).getLast? = some c → nwChar c = true := by
  intro c hc
  rw [trimR, List.getLast?_reverse] at hc
  have := head_dropWhile_not wsChar s.reverse c hc
  simp [nwChar, this]

theorem trimWs_getLast_nw (s : Str) : ∀ c, (trimWs s).getLast? = some c → nwChar c = true := by
  intro c hc
  by_cases h : trimWs s = []
  · simp [h] at hc
  · rw [trimWs, trimL, getLast_dropWhile_ne_nil wsChar (trimR s) h] at hc
    exact trimR_getLast_nw s c hc

theorem trimWs_noop (s : Str) (hh : ∀ c, s.head? = some c → nwChar c = true)
    (hl : ∀ c, s.getLast? = some c → nwChar c = true) : trimWs s = s := by
  cases s with
  | nil => rfl
  | cons c s' =>
    have hc : nwChar c = true := hh c rfl
    have htr : trimR (c :: s') = c :: s' := by
      rw [trimR]
      cases hr : (c :: s').reverse with
      | nil => simp at hr
      | cons d t =>
        have hd : (c :: s').getLast? = some d := by
          rw [← List.head?_reverse, hr]; rfl
        have : wsChar d = false := by simpa [nwChar] using hl d hd
        rw [List.dropWhile_cons_of_neg (by simp [this]), ← hr, List.reverse_reverse]
    rw [trimWs, htr, trimL, List.dropWhile_cons_of_neg (by simp [nwChar] at hc; simp [hc])]

theorem joinSp_nil : joinSp [] = [] := rfl

theorem joinSp_single (a : Str) : joinSp [a] = a := by simp [joinSp, List.intercalate]

theorem joinSp_cons (a b : Str) (t : List Str) :
    joinSp (a :: b :: t) = a ++ ' ' :: joinSp (b :: t) := by
  simp [joinSp, List.intercalate, List.intersperse]

theorem joinSp_cons_ne (a : Str) (l : List Str) (h : l ≠ []) :
    joinSp (a :: l) = a ++ ' ' :: joinSp l := by
  cases l with
  | nil => exact absurd rfl h
  | cons b t => exact joinSp_cons a b t

theorem wordsOf_joinSp (ws : List Str)
    (h : ∀ w ∈ ws, w ≠ [] ∧ ∀ c ∈ w, nwChar c = true) :
    wordsOf (joinSp ws) = ws := by
  induction ws with
  | nil => simp [joinSp_nil, wordsOf_eq_wof, wof_nil]
  | cons w rest ih =>
    obtain ⟨hw, hwc⟩ := h w (by simp)
    cases rest with
    | nil =>
      rw [joinSp_single, wordsOf_eq_wof, wof_single w hw hwc]
    | cons b t =>
      rw [joinSp_cons, wordsOf_append_sep, ih (fun x hx => h x (by simp [hx])),
        wordsOf_eq_wof, wof_single w hw hwc]
      rfl

theorem splitWs_joinSp (ws : List Str)
    (h : ∀ w ∈ ws, w ≠ [] ∧ ∀ c ∈ w, nwChar c = true) (hne : ws ≠ []) :
    splitWs (joinSp ws) = ws := by
  induction ws with
  | nil => exact absurd rfl hne
  | cons w rest ih =>
    obtain ⟨hw, hwc⟩ := h w (by simp)
    have htake : w.takeWhile nwChar = w :=
      List.takeWhile_eq_self_iff.mpr (fun d hd => hwc d hd)
    have hdropw : w.dropWhile nwChar = [] :=
      List.dropWhile_eq_nil_iff.mpr (fun d hd => hwc d hd)
    cases rest with
    | nil =>
      rw [joinSp_single, splitWs_eq, htake, hdropw]
    | cons b t =>
      have hb : b ≠ [] := (h b (by simp)).1
      have hbc : ∀ c ∈ b, nwChar c = true := (h b (by simp)).2
      have hsp : nwChar ' ' = false := by simp [nwChar, wsChar]
      have hhead : (joinSp (b :: t)).dropWhile wsChar = joinSp (b :: t) := by
        cases hbcase : b with
        | nil => exact absurd hbcase hb
        | cons c0 b' =>
          have hc0 : wsChar c0 = false := by
            have := hbc c0 (by simp [hbcase])
            simpa [nwChar] using this
          cases t with
          | nil => rw [joinSp_single, List.dropWhile_cons_of_neg (by simp [hc0])]
          | cons u v =>
            rw [joinSp_cons, List.cons_append,
              List.dropWhile_cons_of_neg (by simp [hc0])]
      rw [joinSp_cons, splitWs_eq, takeWhile_append_stop nwChar w _ ' ' hsp, htake,
        dropWhile_append_stop nwChar w _ ' ' hsp, hdropw, List.nil_append]
      show w :: splitWs ((joinSp (b :: t)).dropWhile wsChar) = w :: b :: t
      rw [hhead, ih (fun x hx => h x (by simp [hx])) (by simp)]

/-! ### Greedy wrap lemmas -/

theorem wrapWords_ne_nil (eff : Int) (ws : List Str) (cur : Str) (h : cur ≠ []) :
    wrapWords eff ws cur ≠ [] := by
  induction ws generalizing cur with
  | nil => simp [wrapWords, h]
  | cons wd rest ih =>
    rw [wrapWords]
    rw [if_neg (by simp [h])]
    by_cases hj : ((cur.length : Int) + 1 + wd.length ≤ eff)
    · rw [if_pos hj]; exact ih _ (by simp)
    · rw [if_neg hj]; simp

theorem joinSp_wrapWords (eff : Int) (ws : List Str) (cur : Str)
    (hws : ∀ w ∈ ws, w ≠ []) (hcur : cur ≠ []) :
    joinSp (wrapWords eff ws cur) = joinSp (cur :: ws) := by
  induction ws generalizing cur with
  | nil => simp [wrapWords, hcur]
  | cons wd rest ih =>
    have hwd : wd ≠ [] := hws wd (by simp)
    have hrest : ∀ w ∈ rest, w ≠ [] := fun w hw => hws w (by simp [hw])
    rw [wrapWords, if_neg (by simp [hcur])]
    by_cases hj : ((cur.length : Int) + 1 + wd.length ≤ eff)
    · rw [if_pos hj, ih (cur ++ ' ' :: wd) hrest (by simp)]
      cases rest with
      | nil => simp [joinSp_single, joinSp_cons]
      | cons b t => simp [joinSp_cons, List.append_assoc]
    · rw [if_neg hj,
        joinSp_cons_ne cur (wrapWords eff rest wd) (wrapWords_ne_nil eff rest wd hwd),
        ih wd hrest hwd, joinSp_cons_ne cur (wd :: rest) (by simp)]

/-! ### Width-bound invariant of the greedy fill -/

theorem wrapWords_bound (eff : Int) (W : List Str) :
    ∀ (ws : List Str) (cur : Str), (∀ w ∈ ws, w ∈ W) →
      (cur = [] ∨ (cur.length : Int) ≤ eff ∨ (cur ∈ W ∧ eff < (cur.length : Int))) →
      ∀ l ∈ wrapWords eff ws cur,
        (l.length : Int) ≤ eff ∨ (l ∈ W ∧ eff < (l.length : Int)) := by
  intro ws
  induction ws with
  | nil =>
    intro cur _ hcur l hl
    by_cases hc : cur.isEmpty
    · simp [wrapWords, hc] at hl
    · simp only [wrapWords, hc, if_neg, Bool.false_eq_true, if_false,
        List.mem_singleton] at hl
      subst hl
      rcases hcur with h | h | h
      · simp [h] at hc
      · exact Or.inl h
      · exact Or.inr h
  | cons wd rest ih =>
    intro cur hws hcur l hl
    have hwdW : wd ∈ W := hws wd (by simp)
    have hrest : ∀ w ∈ rest, w ∈ W := fun w hw => hws w (by simp [hw])
    have hwdInv : wd = [] ∨ (wd.length : Int) ≤ eff ∨ (wd ∈ W ∧ eff < (wd.length : Int)) := by
      by_cases hlen : (wd.length : Int) ≤ eff
      · exact Or.inr (Or.inl hlen)
      · exact Or.inr (Or.inr ⟨hwdW, by omega⟩)
    by_cases hc : cur.isEmpty
    · rw [wrapWords, if_pos hc] at hl
      exact ih wd hrest hwdInv l hl
    · rw [wrapWords, if_neg (by simp [hc])] at hl
      by_cases hj : ((cur.length : Int) + 1 + wd.length ≤ eff)
      · rw [if_pos hj] at hl
        refine ih _ hrest ?_ l hl
        right; left
        have hlen2 : (cur ++ ' ' :: wd).length = cur.length + 1 + wd.length := by
          simp [List.length_append]
          omega
        rw [hlen2]
        push_cast
        omega
      · rw [if_neg hj] at hl
        rcases List.mem_cons.mp hl with h | h
        · subst h
          rcases hcur with h' | h' | h'
          · rw [h'] at hc; simp at hc
          · exact Or.inl h'
          · exact Or.inr h'
        · exact ih wd hrest hwdInv l h

/-! ### Structure of `getLineContext` results -/

theorem listMarker_ne_nil {r mk rest : Str} (h : listMarker r = some (mk, rest)) :
    mk ≠ [] := by
  cases r with
  | nil => simp [listMarker] at h
  | cons c cs =>
    by_cases hb : isBullet c
    · simp [listMarker, hb] at h
      rw [← h.1]
      simp
    · by_cases hd : digitChar c
      · cases hm : (c :: cs).dropWhile digitChar with
        | nil => simp [listMarker, hb, hd, hm] at h
        | cons d cs2 =>
          by_cases hdot : d = '.'
          · subst hdot
            simp [listMarker, hb, hd, hm] at h
            rw [← h.1]
            simp
          · simp [listMarker, hb, hd, hm, hdot] at h
      · simp [listMarker, hb, hd] at h

theorem tryList_shape {ind rest : Str} {c : LineCtx} (h : tryList ind rest = some c) :
    c.ty = .list ∧ c.indent = ind ∧ c.pfx ≠ [] := by
  unfold tryList at h
  cases h2 : listMarker rest with
  | none => rw [h2] at h; simp at h
  | some p =>
    obtain ⟨mk, after⟩ := p
    cases after with
    | nil => rw [h2] at h; simp at h
    | cons a arest =>
      rw [h2] at h
      by_cases hw : wsChar a
      · simp only [hw, if_pos] at h
        rw [← Option.some_inj.mp h]
        exact ⟨rfl, rfl, listMarker_ne_nil h2⟩
      · simp [hw] at h

theorem tryBq_shape {ind rest : Str} {c : LineCtx} (h : tryBq ind rest = some c) :
    c.ty = .bq ∧ c.indent = ind ∧ c.pfx ≠ [] := by
  unfold tryBq at h
  split at h
  · rw [← Option.some_inj.mp h]
    refine ⟨rfl, rfl, ?_⟩
    simp [List.takeWhile_cons]
  · simp at h

theorem getLineContext_shape (s : Str) :
    ((getLineContext s).ty = .para ∧ (getLineContext s).pfx = []) ∨
    ((getLineContext s).ty ≠ .para ∧ (getLineContext s).pfx ≠ []) := by
  unfold getLineContext
  cases h1 : tryList (s.takeWhile wsChar) (s.dropWhile wsChar) with
  | some c =>
    simp only [h1]
    obtain ⟨hty, _, hpfx⟩ := tryList_shape h1
    exact Or.inr ⟨by simp [hty], hpfx⟩
  | none =>
    simp only [h1]
    cases h2 : tryBq (s.takeWhile wsChar) (s.dropWhile wsChar) with
    | some c =>
      simp only [h2]
      obtain ⟨hty, _, hpfx⟩ := tryBq_shape h2
      exact Or.inr ⟨by simp [hty], hpfx⟩
    | none =>
      simp [h2]

/-! ### Prefix re-attachment structure -/

theorem attachLine_decomp (c : LineCtx) (b : Bool) (core : Str)
    (hp : (c.ty = .para ∧ c.pfx = []) ∨ (c.ty ≠ .para ∧ c.pfx ≠ [])) :
    ∃ pre : Str, attachLine c b core = pre ++ core ∧ pre.length = pfxLenOf c := by
  rcases hp with ⟨hty, hpfx⟩ | ⟨hty, hpfx⟩
  · refine ⟨c.indent, ?_, ?_⟩
    · simp [attachLine, hty]
    · simp [pfxLenOf, hpfx]
  · have hpe : c.pfx.isEmpty = false := by
      cases hc : c.pfx
      · exact absurd hc hpfx
      · rfl
    cases hty2 : c.ty with
    | para => exact absurd hty2 hty
    | bq =>
      refine ⟨c.indent ++ c.pfx ++ [' '], ?_, ?_⟩
      · simp [attachLine, hty2]
      · simp [pfxLenOf, hpe]
    | list =>
      cases b with
      | true =>
        refine ⟨c.indent ++ c.pfx ++ [' '], ?_, ?_⟩
        · simp [attachLine, hty2]
        · simp [pfxLenOf, hpe]
      | false =>
        refine ⟨c.indent ++ spacesN (c.pfx.length + 1), ?_, ?_⟩
        · simp [attachLine, hty2]
        · simp [pfxLenOf, hpe, spacesN]

theorem attachLine_drop (c : LineCtx) (b : Bool) (core : Str)
    (hp : (c.ty = .para ∧ c.pfx = []) ∨ (c.ty ≠ .para ∧ c.pfx ≠ [])) :
    (attachLine c b core).drop (pfxLenOf c) = core := by
  obtain ⟨pre, heq, hlen⟩ := attachLine_decomp c b core hp
  rw [heq, ← hlen, List.drop_left]

theorem attachLine_length (c : LineCtx) (b : Bool) (core : Str)
    (hp : (c.ty = .para ∧ c.pfx = []) ∨ (c.ty ≠ .para ∧ c.pfx ≠ [])) :
    (attachLine c b core).length = pfxLenOf c + core.length := by
  obtain ⟨pre, heq, hlen⟩ := attachLine_decomp c b core hp
  rw [heq, List.length_append, hlen]

theorem reflowLines_eq (doc : List Str) (s e w : Nat) :
    reflowLines doc s e w =
      (match coresOf doc s e w with
       | [] => []
       | c0 :: rest =>
         attachLine (ctxOf doc s) true c0 :: rest.map (attachLine (ctxOf doc s) false)) := rfl

theorem mem_reflowLines (doc : List Str) (s e w : Nat) (l : Str)
    (hl : l ∈ reflowLines doc s e w) :
    ∃ b core, core ∈ coresOf doc s e w ∧ l = attachLine (ctxOf doc s) b core := by
  rw [reflowLines_eq] at hl
  cases hc : coresOf doc s e w with
  | nil => rw [hc] at hl; simp at hl
  | cons c0 rest =>
    rw [hc] at hl
    rcases List.mem_cons.mp hl with h | h
    · exact ⟨true, c0, by simp [hc], h⟩
    · obtain ⟨core, hcore, heq⟩ := List.mem_map.mp h
      exact ⟨false, core, by simp [hc, hcore], heq.symm⟩

theorem reflowLines_strip (doc : List Str) (s e w : Nat) :
    (reflowLines doc s e w).map (fun l => l.drop (pfxLenOf (ctxOf doc s))) =
      coresOf doc s e w := by
  have hp : ((ctxOf doc s).ty = .para ∧ (ctxOf doc s).pfx = []) ∨
      ((ctxOf doc s).ty ≠ .para ∧ (ctxOf doc s).pfx ≠ []) :=
    getLineContext_shape (lineAt doc s)
  rw [reflowLines_eq]
  cases hc : coresOf doc s e w with
  | nil => simp
  | cons c0 rest =>
    simp only [List.map_cons, List.map_map]
    rw [attachLine_drop _ true c0 hp]
    congr 1
    refine (List.map_congr_left ?_).trans (List.map_id rest)
    intro core _
    exact attachLine_drop _ false core hp

/-! ### Word goodness of the trimmed unit text -/

theorem splitWs_eq_wof_of (s : Str) (hne : s ≠ [])
    (hh : ∀ c, s.head? = some c → nwChar c = true)
    (hl : ∀ c, s.getLast? = some c → nwChar c = true) :
    splitWs s = wof s := by
  have H : ∀ n (s : Str), s.length ≤ n → s ≠ [] →
      (∀ c, s.head? = some c → nwChar c = true) →
      (∀ c, s.getLast? = some c → nwChar c = true) →
      splitWs s = wof s := by
    intro n
    induction n with
    | zero =>
      intro s hs hne _ _
      exact absurd (List.length_eq_zero.mp (Nat.le_zero.mp hs)) hne
    | succ n ih =>
      intro s hs hne hh hl
      cases s with
      | nil => exact absurd rfl hne
      | cons c s' =>
        have hc : nwChar c = true := hh c rfl
        rw [splitWs_eq, wof_cons_nw s' (by simpa [nwChar] using hc)]
        simp only [List.takeWhile_cons, List.dropWhile_cons, hc, if_true]
        cases hd : s'.dropWhile nwChar with
        | nil => rw [wof_nil]
        | cons wch r =>
          have hwch : wsChar wch = true := by
            have := head_dropWhile_not nwChar s' wch (by simp [hd])
            simpa [nwChar] using this
          have hdec : s' = s'.takeWhile nwChar ++ (wch :: r) := by
            conv_lhs => rw [← List.takeWhile_append_dropWhile (p := nwChar) (l := s')]
            rw [hd]
          have hs'ne : s' ≠ [] := by
            intro h
            rw [h] at hd
            simp at hd
          have hlast : (c :: s').getLast? = s'.getLast? := by
            rw [show (c :: s') = [c] ++ s' from rfl, List.getLast?_append_of_ne_nil _ hs'ne]
          have hrne : r ≠ [] := by
            intro h
            subst h
            have hw : s'.getLast? = some wch := by
              rw [hdec, List.getLast?_append_of_ne_nil _ (by simp)]
              rfl
            have := hl wch (by rw [hlast]; exact hw)
            simp [nwChar, hwch] at this
          have hglast : r.getLast? = s'.getLast? := by
            rw [hdec, List.getLast?_append_of_ne_nil _ (by simp),
              show (wch :: r) = [wch] ++ r from rfl, List.getLast?_append_of_ne_nil _ hrne]
          obtain ⟨x, hxl⟩ : ∃ x, r.getLast? = some x := by
            cases hgl : r.getLast? with
            | none => exact absurd (List.getLast?_eq_none_iff.mp hgl) hrne
            | some x => exact ⟨x, rfl⟩
          have hxnw : nwChar x = true := hl x (by rw [hlast, ← hglast]; exact hxl)
          have htne : r.dropWhile wsChar ≠ [] := by
            intro h
            have hall := List.dropWhile_eq_nil_iff.mp h
            have := hall x (List.mem_of_mem_getLast? hxl)
            simp [nwChar, this] at hxnw
          have hlen2 : (r.dropWhile wsChar).length ≤ n := by
            have h1 : (r.dropWhile wsChar).length ≤ r.length :=
              (List.dropWhile_sublist wsChar).length_le
            have h2 : (s'.dropWhile nwChar).length ≤ s'.length :=
              (List.dropWhile_sublist nwChar).length_le
            rw [hd] at h2
            simp only [List.length_cons] at h2 hs
            omega
          have ihr := ih (r.dropWhile wsChar) hlen2 htne
            (fun ch hch => by
              have := head_dropWhile_not wsChar r ch hch
              simp [nwChar, this])
            (fun ch hch => by
              rw [getLast_dropWhile_ne_nil wsChar r htne, hxl] at hch
              rw [← Option.some_inj.mp hch]
              exact hxnw)
          show (c :: s'.takeWhile nwChar) :: splitWs (r.dropWhile wsChar) =
            (c :: s'.takeWhile nwChar) :: wof (wch :: r)
          rw [ihr, wof_dropWhile_ws]
          exact congrArg _ (wof_cons_ws r hwch).symm
  exact H s.length s (Nat.le_refl _) hne hh hl

theorem allText_good (doc : List Str) (s e : Nat) (hne : allTextOf doc s e ≠ []) :
    ∀ w ∈ splitWs (allTextOf doc s e), w ≠ [] ∧ ∀ c ∈ w, nwChar c = true := by
  have h1 : splitWs (allTextOf doc s e) = wof (allTextOf doc s e) := by
    refine splitWs_eq_wof_of _ hne ?_ ?_
    · exact trimWs_head_nw _
    · exact trimWs_getLast_nw _
  rw [h1]
  exact wof_mem _

theorem splitWs_nil_eval : splitWs ([] : Str) = [[]] := by
  rw [splitWs_eq]
  rfl

theorem coresOf_nil_of_allText_nil (doc : List Str) (s e w : Nat)
    (h : allTextOf doc s e = []) : coresOf doc s e w = [] := by
  unfold coresOf
  rw [show allTextOf doc s e = [] from h, splitWs_nil_eval]
  rfl

theorem splitWs_ne_nil (t : Str) : splitWs t ≠ [] := by
  rw [splitWs_eq]
  simp

/-! ## Claim theorems -/

/-- C3: for every unit and every width `w ≥ 1`, each line produced by
`reflowLines` either fits in `w` characters, or its residue after the
emitted indent/prefix is a single unbreakable word of the unit's word
sequence whose length exceeds the effective width — such a word stands
alone on its line and is never split. -/
theorem reflowWidthBound (doc : List Str) (s e w : Nat) (_hw : 1 ≤ w) :
    ∀ l ∈ reflowLines doc s e w,
      l.length ≤ w ∨
      (l.drop (pfxLenOf (ctxOf doc s)) ∈ splitWs (allTextOf doc s e) ∧
       effOf doc s w < ((l.drop (pfxLenOf (ctxOf doc s))).length : Int)) := by
  intro l hl
  obtain ⟨b, core, hcore, rfl⟩ := mem_reflowLines doc s e w l hl
  have hp : ((ctxOf doc s).ty = .para ∧ (ctxOf doc s).pfx = []) ∨
      ((ctxOf doc s).ty ≠ .para ∧ (ctxOf doc s).pfx ≠ []) :=
    getLineContext_shape (lineAt doc s)
  have hdrop := attachLine_drop (ctxOf doc s) b core hp
  have hlen := attachLine_length (ctxOf doc s) b core hp
  have hbound := wrapWords_bound (effOf doc s w) (splitWs (allTextOf doc s e))
    (splitWs (allTextOf doc s e)) [] (fun _ hx => hx) (Or.inl rfl) core hcore
  rcases hbound with hle | ⟨hmem, hgt⟩
  · left
    rw [hlen]
    have h2 : ((pfxLenOf (ctxOf doc s) + core.length : Nat) : Int) ≤ (w : Int) := by
      have h3 := hle
      unfold effOf at h3
      push_cast
      omega
    exact_mod_cast h2
  · right
    rw [hdrop]
    exact ⟨hmem, hgt⟩

/-- Witness for C3 at a concrete input: `"hello world"` wrapped at width 5. -/
theorem reflowWidthBoundWitness :
    1 ≤ 5 ∧ "hello".toList ∈ reflowLines ["hello world".toList] 0 0 5 ∧
      ("hello".toList.length ≤ 5 ∨
       ("hello".toList.drop (pfxLenOf (ctxOf ["hello world".toList] 0)) ∈
          splitWs (allTextOf ["hello world".toList] 0 0) ∧
        effOf ["hello world".toList] 0 5 <
          (("hello".toList.drop (pfxLenOf (ctxOf ["hello world".toList] 0))).length : Int))) := by
  have hmem : "hello".toList ∈ reflowLines ["hello world".toList] 0 0 5 := by
    simp [reflowLines, getLineContext, lineAt, tryList, tryBq, listMarker, isBullet, digitChar,
      allTextOf, contentsOf, joinSp, trimWs, trimL, trimR, wsChar, nwChar,
      splitWs, splitWsAux, wrapWords, attachLine, pfxLenOf, spacesN, List.intercalate,
      List.range', List.dropWhile, List.takeWhile, List.intersperse]
  exact ⟨by norm_num, hmem, reflowWidthBound ["hello world".toList] 0 0 5 (by norm_num) _ hmem⟩

/-- C4 amended: after stripping the re-attached indent/prefix decoration
from every output line, the whitespace-normalized word sequence of the
output equals that of the unit's classified line contents. -/
theorem reflowContentWords (doc : List Str) (s e w : Nat) :
    wordsOf (joinSp ((reflowLines doc s e w).map
        (fun l => l.drop (pfxLenOf (ctxOf doc s))))) =
      wordsOf (joinSp (contentsOf doc s e)) := by
  rw [reflowLines_strip]
  have h2 : wordsOf (allTextOf doc s e) = wordsOf (joinSp (contentsOf doc s e)) :=
    wordsOf_trim _
  by_cases hAT : allTextOf doc s e = []
  · rw [coresOf_nil_of_allText_nil doc s e w hAT, ← h2, hAT]
    rfl
  · have hgood := allText_good doc s e hAT
    cases hw : splitWs (allTextOf doc s e) with
    | nil => exact absurd hw (splitWs_ne_nil _)
    | cons w0 rest =>
      rw [hw] at hgood
      have hw0 : w0 ≠ [] := (hgood w0 (by simp)).1
      have hstep : coresOf doc s e w = wrapWords (effOf doc s w) rest w0 := by
        unfold coresOf
        rw [hw]
        rfl
      rw [hstep,
        joinSp_wrapWords (effOf doc s w) rest w0 (fun x hx => (hgood x (by simp [hx])).1) hw0,
        wordsOf_joinSp _ hgood, ← h2]
      unfold wordsOf
      rw [hw]
      exact (List.filter_eq_self.mpr (fun x hx => by
        simp [(hgood x hx).1])).symm

theorem joinSp_head? (w0 : Str) (rest : List Str) (hw0 : w0 ≠ []) :
    (joinSp (w0 :: rest)).head? = w0.head? := by
  cases rest with
  | nil => rw [joinSp_single]
  | cons b t =>
    rw [joinSp_cons]
    cases w0 with
    | nil => exact absurd rfl hw0
    | cons x s => simp

theorem joinSp_getLast_nw (ws : List Str)
    (h : ∀ w ∈ ws, w ≠ [] ∧ ∀ c ∈ w, nwChar c = true) :
    ∀ c, (joinSp ws).getLast? = some c → nwChar c = true := by
  induction ws with
  | nil =>
    intro c hc
    simp [joinSp_nil] at hc
  | cons w rest ih =>
    intro c hc
    cases rest with
    | nil =>
      rw [joinSp_single] at hc
      exact (h w (by simp)).2 c (List.mem_of_mem_getLast? hc)
    | cons b t =>
      rw [joinSp_cons] at hc
      have hb : b ≠ [] := (h b (by simp)).1
      have hJne : joinSp (b :: t) ≠ [] := by
        intro hj
        have hh := joinSp_head? b t hb
        rw [hj] at hh
        cases b with
        | nil => exact hb rfl
        | cons x s => simp at hh
      rw [List.getLast?_append_of_ne_nil _ (by simp),
        show (' ' :: joinSp (b :: t)) = [' '] ++ joinSp (b :: t) from rfl,
        List.getLast?_append_of_ne_nil _ hJne] at hc
      exact ih (fun x hx => h x (by simp [hx])) c hc

theorem trimWs_joinSp_good (w0 : Str) (rest : List Str)
    (h : ∀ w ∈ w0 :: rest, w ≠ [] ∧ ∀ c ∈ w, nwChar c = true) :
    trimWs (joinSp (w0 :: rest)) = joinSp (w0 :: rest) := by
  apply trimWs_noop
  · intro c hc
    rw [joinSp_head? w0 rest (h w0 (by simp)).1] at hc
    cases w0 with
    | nil => simp at hc
    | cons x s =>
      have hcx : x = c := by simpa using hc
      subst hcx
      exact (h (x :: s) (by simp)).2 x (by simp)
  · exact joinSp_getLast_nw _ h

theorem map_getD_range' (M : List Str) (f : Str → Str) :
    ∀ (T : List Str) (s : Nat), M.drop s = T →
      (List.range' s T.length).map (fun i => f (M.getD i [])) = T.map f := by
  intro T
  induction T with
  | nil => intro s _; simp
  | cons x t ih =>
    intro s h
    have hx : M.getD s [] = x := by
      have h0 : (M.drop s)[0]? = some x := by rw [h]; simp
      rw [List.getElem?_drop] at h0
      simp only [Nat.add_zero] at h0
      simp [List.getD_eq_getElem?_getD, h0]
    have ht : M.drop (s + 1) = t := by
      have h2 : List.drop 1 (List.drop s M) = List.drop (s + 1) M := List.drop_drop 1 s M
      rw [h] at h2
      rw [← h2]
      rfl
    simp only [List.length_cons]
    rw [show List.range' s (t.length + 1) = s :: List.range' (s + 1) t.length from rfl]
    simp only [List.map_cons, hx]
    rw [ih (s + 1) ht]

theorem attachLine_congr (c1 c2 : LineCtx) (hty : c1.ty = c2.ty)
    (hind : c1.indent = c2.indent) (hpfx : c1.pfx = c2.pfx) (b : Bool) (core : Str) :
    attachLine c1 b core = attachLine c2 b core := by
  unfold attachLine
  rw [hty, hind, hpfx]

/-- C2: `reflowLines` — the word-joining step of the final revision's
reflow path — takes no `doubleSpaceBetweenSentences` input at all (the
interactive `reflow` passes only `settings.preferredLineLength`) and
joins `"End."` and `"Next"` with a single space, never two. -/
theorem reflowSingleSpaceOnly :
    reflowLines ["End. Next".toList] 0 0 80 = ["End. Next".toList] ∧
      reflowLines ["End. Next".toList] 0 0 80 ≠ ["End.  Next".toList] := by
  have h : reflowLines ["End. Next".toList] 0 0 80 = ["End. Next".toList] := by
    simp [reflowLines, getLineContext, lineAt, tryList, tryBq, listMarker, isBullet, digitChar,
      allTextOf, contentsOf, joinSp, trimWs, trimL, trimR, wsChar, nwChar,
      splitWs, splitWsAux, wrapWords, attachLine, pfxLenOf, spacesN, List.intercalate,
      List.range', List.dropWhile, List.takeWhile, List.intersperse]
  refine ⟨h, ?_⟩
  rw [h]
  simp

/-- C4 as stated is false: wrapping the blockquote `"> a b c"` at width 5
re-emits the `>` prefix on every output line, duplicating it in the
output's whitespace-normalized word sequence. -/
theorem reflowWordsCounterexample :
    wordsOf (joinSp (reflowLines ["> a b c".toList] 0 0 5)) ≠
      wordsOf (joinSp ["> a b c".toList]) := by
  have h1 : reflowLines ["> a b c".toList] 0 0 5 = ["> a b".toList, "> c".toList] := by
    simp [reflowLines, getLineContext, lineAt, tryList, tryBq, listMarker, isBullet, digitChar,
      allTextOf, contentsOf, joinSp, trimWs, trimL, trimR, wsChar, nwChar,
      splitWs, splitWsAux, wrapWords, attachLine, pfxLenOf, spacesN, List.intercalate,
      List.range', List.dropWhile, List.takeWhile, List.intersperse]
  rw [h1]
  rw [wordsOf_eq_wof, wordsOf_eq_wof]
  simp [joinSp, List.intercalate, List.intersperse, wof, wsChar, nwChar,
    List.takeWhile, List.dropWhile]

/-- C5 amended: a second pass over the output (same extent and width)
reproduces it exactly, provided the output re-parses consistently: the
first output line classifies with the same type/indent/prefix as the
unit's authoritative context and its content is the emitted core, and
every later output line's classified content equals its emitted core
(no continuation line re-parses as a new list or blockquote marker). -/
theorem reflowIdempotentUnderReparse (doc : List Str) (s e w : Nat)
    (hne : reflowLines doc s e w ≠ [])
    (h0 : getLineContext (lineAt (reflowLines doc s e w) 0) =
      ⟨(ctxOf doc s).ty, (ctxOf doc s).indent, (ctxOf doc s).pfx,
        (lineAt (reflowLines doc s e w) 0).drop (pfxLenOf (ctxOf doc s))⟩)
    (hi : ∀ i, 0 < i → i < (reflowLines doc s e w).length →
      (getLineContext (lineAt (reflowLines doc s e w) i)).content =
        (lineAt (reflowLines doc s e w) i).drop (pfxLenOf (ctxOf doc s))) :
    reflowLines (reflowLines doc s e w) 0 ((reflowLines doc s e w).length - 1) w =
      reflowLines doc s e w := by
  by_cases hAT : allTextOf doc s e = []
  · exfalso
    apply hne
    rw [reflowLines_eq, coresOf_nil_of_allText_nil doc s e w hAT]
  · have hgood := allText_good doc s e hAT
    obtain ⟨w0, rest, hw⟩ : ∃ w0 rest, splitWs (allTextOf doc s e) = w0 :: rest := by
      cases hws : splitWs (allTextOf doc s e) with
      | nil => exact absurd hws (splitWs_ne_nil _)
      | cons a b => exact ⟨a, b, rfl⟩
    rw [hw] at hgood
    have hw0 : w0 ≠ [] := (hgood w0 (by simp)).1
    have hstrip : (reflowLines doc s e w).map
        (fun l => l.drop (pfxLenOf (ctxOf doc s))) = coresOf doc s e w :=
      reflowLines_strip doc s e w
    have hcontents : contentsOf (reflowLines doc s e w) 0
        ((reflowLines doc s e w).length - 1) = coresOf doc s e w := by
      unfold contentsOf
      have hlen1 : 1 ≤ (reflowLines doc s e w).length := by
        cases ho : reflowLines doc s e w with
        | nil => exact absurd ho hne
        | cons a b => simp
      rw [show (reflowLines doc s e w).length - 1 + 1 - 0 =
        (reflowLines doc s e w).length by omega]
      have h1 : (List.range' 0 (reflowLines doc s e w).length).map
          (fun i => (getLineContext (lineAt (reflowLines doc s e w) i)).content) =
          (List.range' 0 (reflowLines doc s e w).length).map
          (fun i => (lineAt (reflowLines doc s e w) i).drop (pfxLenOf (ctxOf doc s))) := by
        apply List.map_congr_left
        intro i hi2
        have hi3 : i < (reflowLines doc s e w).length := by
          have := List.mem_range'.mp hi2
          omega
        by_cases hz : i = 0
        · subst hz
          rw [h0]
        · exact hi i (Nat.pos_of_ne_zero hz) hi3
      rw [h1]
      simp only [lineAt]
      rw [map_getD_range' (reflowLines doc s e w)
        (fun l => l.drop (pfxLenOf (ctxOf doc s))) (reflowLines doc s e w) 0 (by simp),
        hstrip]
    have hcore_eq : coresOf doc s e w = wrapWords (effOf doc s w) rest w0 := by
      unfold coresOf
      rw [hw]
      rfl
    have hAT2 : allTextOf (reflowLines doc s e w) 0 ((reflowLines doc s e w).length - 1) =
        joinSp (w0 :: rest) := by
      unfold allTextOf
      rw [hcontents, hcore_eq,
        joinSp_wrapWords (effOf doc s w) rest w0
          (fun x hx => (hgood x (by simp [hx])).1) hw0]
      exact trimWs_joinSp_good w0 rest hgood
    have hwords2 : splitWs (allTextOf (reflowLines doc s e w) 0
        ((reflowLines doc s e w).length - 1)) = w0 :: rest := by
      rw [hAT2]
      exact splitWs_joinSp _ hgood (by simp)
    have hpl2 : pfxLenOf (ctxOf (reflowLines doc s e w) 0) = pfxLenOf (ctxOf doc s) := by
      show pfxLenOf (getLineContext (lineAt (reflowLines doc s e w) 0)) = _
      rw [h0]
      rfl
    have heff2 : effOf (reflowLines doc s e w) 0 w = effOf doc s w := by
      unfold effOf
      rw [show pfxLenOf (ctxOf (reflowLines doc s e w) 0) = pfxLenOf (ctxOf doc s)
        from hpl2]
    have hcores2 : coresOf (reflowLines doc s e w) 0 ((reflowLines doc s e w).length - 1) w =
        coresOf doc s e w := by
      unfold coresOf
      rw [hwords2, heff2, hw]
    rw [reflowLines_eq (reflowLines doc s e w) 0 ((reflowLines doc s e w).length - 1) w,
      hcores2]
    conv_rhs => rw [reflowLines_eq doc s e w]
    have hfun : attachLine (ctxOf (reflowLines doc s e w) 0) = attachLine (ctxOf doc s) := by
      funext b core
      apply attachLine_congr
      · show (getLineContext (lineAt (reflowLines doc s e w) 0)).ty = _
        rw [h0]
      · show (getLineContext (lineAt (reflowLines doc s e w) 0)).indent = _
        rw [h0]
      · show (getLineContext (lineAt (reflowLines doc s e w) 0)).pfx = _
        rw [h0]
    rw [hfun]

/-- Witness for the amended C5 at a concrete input: `"hello world foo"`
wrapped at width 11 re-parses consistently and a second pass reproduces
the output exactly. -/
theorem reflowIdempotentUnderReparseWitness :
    reflowLines ["hello world foo".toList] 0 0 11 ≠ [] ∧
    reflowLines (reflowLines ["hello world foo".toList] 0 0 11) 0
        ((reflowLines ["hello world foo".toList] 0 0 11).length - 1) 11 =
      reflowLines ["hello world foo".toList] 0 0 11 := by
  have hout : reflowLines ["hello world foo".toList] 0 0 11 =
      ["hello world".toList, "foo".toList] := by
    simp [reflowLines, getLineContext, lineAt, tryList, tryBq, listMarker, isBullet, digitChar,
      allTextOf, contentsOf, joinSp, trimWs, trimL, trimR, wsChar, nwChar,
      splitWs, splitWsAux, wrapWords, attachLine, pfxLenOf, spacesN, List.intercalate,
      List.range', List.dropWhile, List.takeWhile, List.intersperse]
  have hne : reflowLines ["hello world foo".toList] 0 0 11 ≠ [] := by
    rw [hout]
    simp
  have h0 : getLineContext (lineAt (reflowLines ["hello world foo".toList] 0 0 11) 0) =
      ⟨(ctxOf ["hello world foo".toList] 0).ty, (ctxOf ["hello world foo".toList] 0).indent,
        (ctxOf ["hello world foo".toList] 0).pfx,
        (lineAt (reflowLines ["hello world foo".toList] 0 0 11) 0).drop
          (pfxLenOf (ctxOf ["hello world foo".toList] 0))⟩ := by
    rw [hout]
    simp [getLineContext, ctxOf, lineAt, tryList, tryBq, listMarker, isBullet, digitChar,
      trimWs, trimL, trimR, wsChar, nwChar, pfxLenOf, List.dropWhile, List.takeWhile]
  have hi : ∀ i, 0 < i → i < (reflowLines ["hello world foo".toList] 0 0 11).length →
      (getLineContext (lineAt (reflowLines ["hello world foo".toList] 0 0 11) i)).content =
        (lineAt (reflowLines ["hello world foo".toList] 0 0 11) i).drop
          (pfxLenOf (ctxOf ["hello world foo".toList] 0)) := by
    intro i h1 h2
    rw [hout] at h2 ⊢
    simp only [List.length_cons, List.length_nil] at h2
    have hi1 : i = 1 := by omega
    subst hi1
    simp [getLineContext, ctxOf, lineAt, tryList, tryBq, listMarker, isBullet, digitChar,
      trimWs, trimL, trimR, wsChar, nwChar, pfxLenOf, List.dropWhile, List.takeWhile]
  exact ⟨hne, reflowIdempotentUnderReparse ["hello world foo".toList] 0 0 11 hne h0 hi⟩

/-- C5 as stated is false: reflowing `"aaaaaaa - yyy"` at width 7 yields
`"aaaaaaa" / "- yyy"`; a second pass re-parses `"- yyy"` as a list item,
drops the `-` token, and yields the different text `"aaaaaaa" / "yyy"`. -/
theorem reflowIdempotenceCounterexample :
    reflowLines (reflowLines ["aaaaaaa - yyy".toList] 0 0 7) 0
        ((reflowLines ["aaaaaaa - yyy".toList] 0 0 7).length - 1) 7 ≠
      reflowLines ["aaaaaaa - yyy".toList] 0 0 7 := by
  have h1 : reflowLines ["aaaaaaa - yyy".toList] 0 0 7 =
      ["aaaaaaa".toList, "- yyy".toList] := by
    simp [reflowLines, getLineContext, lineAt, tryList, tryBq, listMarker, isBullet, digitChar,
      allTextOf, contentsOf, joinSp, trimWs, trimL, trimR, wsChar, nwChar,
      splitWs, splitWsAux, wrapWords, attachLine, pfxLenOf, spacesN, List.intercalate,
      List.range', List.dropWhile, List.takeWhile, List.intersperse]
  rw [h1]
  have h2 : reflowLines ["aaaaaaa".toList, "- yyy".toList] 0 1 7 =
      ["aaaaaaa".toList, "yyy".toList] := by
    simp [reflowLines, getLineContext, lineAt, tryList, tryBq, listMarker, isBullet, digitChar,
      allTextOf, contentsOf, joinSp, trimWs, trimL, trimR, wsChar, nwChar,
      splitWs, splitWsAux, wrapWords, attachLine, pfxLenOf, spacesN, List.intercalate,
      List.range', List.dropWhile, List.takeWhile, List.intersperse]
  rw [show (["aaaaaaa".toList, "- yyy".toList] : List Str).length - 1 = 1 by rfl, h2]
  simp

/-! ### Bracket-expression / fenced-code disjointness -/

theorem jsxAux_step_stop (doc : List Str) (fenced : List LineRange) (i d : Nat)
    (cur : Option Nat) (hge : ¬ i < doc.length) :
    jsxAux doc fenced i d cur =
      (match cur with | some c => [(c, doc.length - 1)] | none => []) := by
  rw [jsxAux.eq_def]
  simp [hge]

theorem jsxAux_step_fence (doc : List Str) (fenced : List LineRange) (i d : Nat)
    (cur : Option Nat) (hlt : i < doc.length)
    (hf : (findRangeContainingLine fenced i).isSome = true) :
    jsxAux doc fenced i d cur =
      (match cur with
       | some c => (c, i - 1) :: jsxAux doc fenced (i + 1) d none
       | none => jsxAux doc fenced (i + 1) d none) := by
  rw [jsxAux.eq_def]
  simp [hlt, hf]

theorem jsxAux_step_scan (doc : List Str) (fenced : List LineRange) (i d : Nat)
    (cur : Option Nat) (hlt : i < doc.length)
    (hf : (findRangeContainingLine fenced i).isSome = false) :
    jsxAux doc fenced i d cur =
      (if (scanChars (lineAt doc i) false 0 d (decide (0 < d))).2 = true then
        jsxAux doc fenced (i + 1) (scanChars (lineAt doc i) false 0 d (decide (0 < d))).1
          (some (cur.getD i))
      else
        match cur with
        | some c => (c, i - 1) :: jsxAux doc fenced (i + 1)
            (scanChars (lineAt doc i) false 0 d (decide (0 < d))).1 none
        | none => jsxAux doc fenced (i + 1)
            (scanChars (lineAt doc i) false 0 d (decide (0 < d))).1 none) := by
  rw [jsxAux.eq_def]
  simp [hlt, hf]

/-- Invariant of the bracket-expression scan: while a range is open its
lines seen so far avoid every fenced range, so every emitted range is
well-formed and fence-free. -/
theorem jsxAux_inv (doc : List Str) (fenced : List LineRange) :
    ∀ (n i d : Nat) (cur : Option Nat), doc.length - i ≤ n →
      (∀ c, cur = some c → c < i ∧ c < doc.length ∧
        ∀ l, c ≤ l → l < i → findRangeContainingLine fenced l = none) →
      ∀ r ∈ jsxAux doc fenced i d cur,
        r.1 ≤ r.2 ∧ ∀ l, r.1 ≤ l → l ≤ r.2 →
          findRangeContainingLine fenced l = none := by
  intro n
  induction n with
  | zero =>
    intro i d cur hn hcur r hr
    have hge : ¬ i < doc.length := by omega
    rw [jsxAux_step_stop doc fenced i d cur hge] at hr
    cases cur with
    | none => simp at hr
    | some c =>
      simp only [List.mem_singleton] at hr
      subst hr
      obtain ⟨hci, hclen, hc2⟩ := hcur c rfl
      refine ⟨by omega, ?_⟩
      intro l h1 h2
      exact hc2 l h1 (by omega)
  | succ n ih =>
    intro i d cur hn hcur r hr
    by_cases hlt : i < doc.length
    · by_cases hf : (findRangeContainingLine fenced i).isSome = true
      · rw [jsxAux_step_fence doc fenced i d cur hlt hf] at hr
        cases cur with
        | none => exact ih (i + 1) d none (by omega) (by simp) r hr
        | some c =>
          obtain ⟨hci, hclen, hc2⟩ := hcur c rfl
          rcases List.mem_cons.mp hr with h | h
          · subst h
            refine ⟨by omega, ?_⟩
            intro l h1 h2
            exact hc2 l h1 (by omega)
          · exact ih (i + 1) d none (by omega) (by simp) r h
      · have hf' : (findRangeContainingLine fenced i).isSome = false := by
          simpa using hf
        have hfi : findRangeContainingLine fenced i = none := by
          cases hx : findRangeContainingLine fenced i with
          | none => rfl
          | some v => rw [hx] at hf'; simp at hf'
        rw [jsxAux_step_scan doc fenced i d cur hlt hf'] at hr
        by_cases hsc : (scanChars (lineAt doc i) false 0 d (decide (0 < d))).2 = true
        · rw [if_pos hsc] at hr
          refine ih (i + 1) _ (some (cur.getD i)) (by omega) ?_ r hr
          intro c' hc'
          have hc'' : cur.getD i = c' := by simpa using hc'
          cases cur with
          | none =>
            simp only [Option.getD_none] at hc''
            rw [← hc'']
            refine ⟨by omega, by omega, ?_⟩
            intro l h1 h2
            have hl : l = i := by omega
            subst hl
            exact hfi
          | some c0 =>
            simp only [Option.getD_some] at hc''
            rw [← hc'']
            obtain ⟨hci, hclen, hc2⟩ := hcur c0 rfl
            refine ⟨by omega, by omega, ?_⟩
            intro l h1 h2
            by_cases hli : l < i
            · exact hc2 l h1 hli
            · have hl : l = i := by omega
              subst hl
              exact hfi
        · rw [if_neg hsc] at hr
          cases cur with
          | none => exact ih (i + 1) _ none (by omega) (by simp) r hr
          | some c =>
            obtain ⟨hci, hclen, hc2⟩ := hcur c rfl
            rcases List.mem_cons.mp hr with h | h
            · subst h
              refine ⟨by omega, ?_⟩
              intro l h1 h2
              exact hc2 l h1 (by omega)
            · exact ih (i + 1) _ none (by omega) (by simp) r h
    · rw [jsxAux_step_stop doc fenced i d cur hlt] at hr
      cases cur with
      | none => simp at hr
      | some c =>
        simp only [List.mem_singleton] at hr
        subst hr
        obtain ⟨hci, hclen, hc2⟩ := hcur c rfl
        refine ⟨by omega, ?_⟩
        intro l h1 h2
        exact hc2 l h1 (by omega)

theorem getJsx_inv (doc : List Str) (fenced : List LineRange) :
    ∀ r ∈ getJsxExpressionRanges doc fenced,
      r.1 ≤ r.2 ∧ ∀ l, r.1 ≤ l → l ≤ r.2 →
        findRangeContainingLine fenced l = none := fun r hr =>
  jsxAux_inv doc fenced doc.length 0 0 none (by omega) (by simp) r hr

theorem fencedAux_step_stop (doc : List Str) (i : Nat) (st : Option (Nat × Char × Nat))
    (hge : ¬ i < doc.length) :
    fencedAux doc i st =
      (match st with | some (b, _, _) => [(b, doc.length - 1)] | none => []) := by
  rw [fencedAux.eq_def]
  simp [hge]

theorem fencedAux_step_none (doc : List Str) (i : Nat) (hlt : i < doc.length) :
    fencedAux doc i none =
      (match fenceOpen (lineAt doc i) with
       | some (c, m) => fencedAux doc (i + 1) (some (i, c, m))
       | none => fencedAux doc (i + 1) none) := by
  rw [fencedAux.eq_def]
  simp [hlt]

theorem fencedAux_step_some (doc : List Str) (i b : Nat) (c : Char) (m : Nat)
    (hlt : i < doc.length) :
    fencedAux doc i (some (b, c, m)) =
      (if fenceClose c m (lineAt doc i) then (b, i) :: fencedAux doc (i + 1) none
       else fencedAux doc (i + 1) (some (b, c, m))) := by
  rw [fencedAux.eq_def]
  simp [hlt]

theorem fencedAux_wf (doc : List Str) :
    ∀ (n i : Nat) (st : Option (Nat × Char × Nat)), doc.length - i ≤ n →
      (∀ b c m, st = some (b, c, m) → b ≤ i ∧ b < doc.length) →
      ∀ r ∈ fencedAux doc i st, r.1 ≤ r.2 := by
  intro n
  induction n with
  | zero =>
    intro i st hn hst r hr
    have hge : ¬ i < doc.length := by omega
    rw [fencedAux_step_stop doc i st hge] at hr
    cases st with
    | none => simp at hr
    | some v =>
      obtain ⟨b, c, m⟩ := v
      simp only [List.mem_singleton] at hr
      subst hr
      obtain ⟨h1, h2⟩ := hst b c m rfl
      simp
      omega
  | succ n ih =>
    intro i st hn hst r hr
    by_cases hlt : i < doc.length
    · cases st with
      | none =>
        rw [fencedAux_step_none doc i hlt] at hr
        cases ho : fenceOpen (lineAt doc i) with
        | none =>
          rw [ho] at hr
          exact ih (i + 1) none (by omega) (by simp) r hr
        | some v =>
          obtain ⟨c, m⟩ := v
          rw [ho] at hr
          refine ih (i + 1) (some (i, c, m)) (by omega) ?_ r hr
          intro b' c' m' hv
          simp only [Option.some_inj, Prod.mk.injEq] at hv
          refine ⟨by omega, by omega⟩
      | some v =>
        obtain ⟨b, c, m⟩ := v
        rw [fencedAux_step_some doc i b c m hlt] at hr
        obtain ⟨hb1, hb2⟩ := hst b c m rfl
        by_cases hcl : fenceClose c m (lineAt doc i)
        · rw [if_pos hcl] at hr
          rcases List.mem_cons.mp hr with h | h
          · subst h
            simpa using hb1
          · exact ih (i + 1) none (by omega) (by simp) r h
        · rw [if_neg hcl] at hr
          refine ih (i + 1) (some (b, c, m)) (by omega) ?_ r hr
          intro b' c' m' hv
          simp only [Option.some_inj, Prod.mk.injEq] at hv
          refine ⟨by omega, by omega⟩
    · rw [fencedAux_step_stop doc i st hlt] at hr
      cases st with
      | none => simp at hr
      | some v =>
        obtain ⟨b, c, m⟩ := v
        simp only [List.mem_singleton] at hr
        subst hr
        obtain ⟨h1, h2⟩ := hst b c m rfl
        simp
        omega

theorem getFenced_wf (doc : List Str) :
    ∀ r ∈ getFencedCodeBlockRanges doc, r.1 ≤ r.2 := fun r hr =>
  fencedAux_wf doc doc.length 0 none (by omega) (by simp) r hr

/-- C1 as stated is false: the brace-depth counter is not cleared at a
fence.  With lines `{` / ``` ``` ``` / ``` ``` ``` / `hello`, the open
range is closed at line 0, but the surviving depth reopens a range at
line 3 — a line after the fence ends up inside a bracket-expression
range. -/
theorem jsxDepthSurvivesFenceCounterexample :
    getFencedCodeBlockRanges ["\x7b".toList, "```".toList, "```".toList, "hello".toList] =
      [(1, 2)] ∧
    (3, 3) ∈ getJsxExpressionRanges
      ["\x7b".toList, "```".toList, "```".toList, "hello".toList]
      (getFencedCodeBlockRanges
        ["\x7b".toList, "```".toList, "```".toList, "hello".toList]) := by
  have h1 : getFencedCodeBlockRanges
      ["\x7b".toList, "```".toList, "```".toList, "hello".toList] = [(1, 2)] := by
    simp [getFencedCodeBlockRanges, fencedAux, fenceOpen, fenceClose, lineAt, wsChar,
      List.takeWhile, List.dropWhile]
  refine ⟨h1, ?_⟩
  rw [h1]
  simp [getJsxExpressionRanges, jsxAux, scanChars, findRangeContainingLine, lineAt,
    List.find?, List.takeWhile, List.drop]

/-- C1 amended: entering a fence still force-closes the in-progress
expression range at the line before the fence, so no line of any
bracket-expression range lies inside a fenced range; but the depth
counter survives, so lines after the fence can resume a range. -/
theorem jsxRangesAvoidFences (doc : List Str) (r : LineRange)
    (hr : r ∈ getJsxExpressionRanges doc (getFencedCodeBlockRanges doc))
    (l : Nat) (h1 : r.1 ≤ l) (h2 : l ≤ r.2) :
    findRangeContainingLine (getFencedCodeBlockRanges doc) l = none :=
  (getJsx_inv doc (getFencedCodeBlockRanges doc) r hr).2 l h1 h2

/-- Witness for the amended C1 at a concrete input. -/
theorem jsxRangesAvoidFencesWitness :
    (0, 0) ∈ getJsxExpressionRanges
        ["a \x7bx\x7d b".toList, "".toList, "```".toList, "q".toList, "```".toList]
        (getFencedCodeBlockRanges
          ["a \x7bx\x7d b".toList, "".toList, "```".toList, "q".toList, "```".toList]) ∧
    findRangeContainingLine
      (getFencedCodeBlockRanges
        ["a \x7bx\x7d b".toList, "".toList, "```".toList, "q".toList, "```".toList]) 0 =
      none := by
  have hf : getFencedCodeBlockRanges
      ["a \x7bx\x7d b".toList, "".toList, "```".toList, "q".toList, "```".toList] =
      [(2, 4)] := by
    simp [getFencedCodeBlockRanges, fencedAux, fenceOpen, fenceClose, lineAt, wsChar,
      List.takeWhile, List.dropWhile]
  have hmem : (0, 0) ∈ getJsxExpressionRanges
      ["a \x7bx\x7d b".toList, "".toList, "```".toList, "q".toList, "```".toList]
      (getFencedCodeBlockRanges
        ["a \x7bx\x7d b".toList, "".toList, "```".toList, "q".toList, "```".toList]) := by
    rw [hf]
    simp [getJsxExpressionRanges, jsxAux, scanChars, findRangeContainingLine, lineAt,
      List.find?, List.takeWhile, List.drop]
  exact ⟨hmem,
    jsxRangesAvoidFences _ (0, 0) hmem 0 (Nat.le_refl 0) (Nat.le_refl 0)⟩

/-- C7 as stated is false: the fence scanner ignores front matter, so a
fence opened inside front matter produces a fenced range overlapping
the front-matter range (lines `---` / ``` ``` ``` / `---` / `x`). -/
theorem fencedOverlapsFrontMatterCounterexample :
    getFrontMatterRange ["---".toList, "```".toList, "---".toList, "x".toList] =
      some (0, 2) ∧
    getFencedCodeBlockRanges ["---".toList, "```".toList, "---".toList, "x".toList] =
      [(1, 3)] ∧
    ¬((3 : Nat) < 0 ∨ (2 : Nat) < 1) := by
  refine ⟨?_, ?_, by omega⟩
  · simp [getFrontMatterRange, firstNonBlank, fmFindClose, blankL, lineAt, trimWs,
      trimL, trimR, wsChar, List.dropWhile, List.takeWhile]
  · simp [getFencedCodeBlockRanges, fencedAux, fenceOpen, fenceClose, lineAt, wsChar,
      List.takeWhile, List.dropWhile]

/-- C7 amended: fenced-code and bracket-expression ranges never overlap
each other; overlap with the front-matter range is possible, since the
fence and bracket scanners do not consult front matter. -/
theorem fencedJsxNoOverlap (doc : List Str) (fr jr : LineRange)
    (hfr : fr ∈ getFencedCodeBlockRanges doc)
    (hjr : jr ∈ getJsxExpressionRanges doc (getFencedCodeBlockRanges doc)) :
    fr.2 < jr.1 ∨ jr.2 < fr.1 := by
  by_contra hcon
  push_neg at hcon
  obtain ⟨h1, h2⟩ := hcon
  obtain ⟨hwf, hdisj⟩ := getJsx_inv doc (getFencedCodeBlockRanges doc) jr hjr
  have hfwf := getFenced_wf doc fr hfr
  have hl1 : jr.1 ≤ max fr.1 jr.1 := Nat.le_max_right _ _
  have hl2 : max fr.1 jr.1 ≤ jr.2 := by omega
  have hnone := hdisj (max fr.1 jr.1) hl1 hl2
  have hsome : (findRangeContainingLine (getFencedCodeBlockRanges doc)
      (max fr.1 jr.1)).isSome = true := by
    apply List.find?_isSome.mpr
    refine ⟨fr, hfr, ?_⟩
    simp only [Bool.and_eq_true, decide_eq_true_eq]
    omega
  rw [hnone] at hsome
  simp at hsome

/-- Witness for the amended C7 at a concrete input with both kinds of
ranges present. -/
theorem fencedJsxNoOverlapWitness :
    (2, 4) ∈ getFencedCodeBlockRanges
        ["a \x7bx\x7d b".toList, "".toList, "```".toList, "q".toList, "```".toList] ∧
    (0, 0) ∈ getJsxExpressionRanges
        ["a \x7bx\x7d b".toList, "".toList, "```".toList, "q".toList, "```".toList]
        (getFencedCodeBlockRanges
          ["a \x7bx\x7d b".toList, "".toList, "```".toList, "q".toList, "```".toList]) ∧
    (((2, 4) : LineRange).2 < ((0, 0) : LineRange).1 ∨
      ((0, 0) : LineRange).2 < ((2, 4) : LineRange).1) := by
  have hf : getFencedCodeBlockRanges
      ["a \x7bx\x7d b".toList, "".toList, "```".toList, "q".toList, "```".toList] =
      [(2, 4)] := by
    simp [getFencedCodeBlockRanges, fencedAux, fenceOpen, fenceClose, lineAt, wsChar,
      List.takeWhile, List.dropWhile]
  have hmemf : (2, 4) ∈ getFencedCodeBlockRanges
      ["a \x7bx\x7d b".toList, "".toList, "```".toList, "q".toList, "```".toList] := by
    rw [hf]
    simp
  have hmemj : (0, 0) ∈ getJsxExpressionRanges
      ["a \x7bx\x7d b".toList, "".toList, "```".toList, "q".toList, "```".toList]
      (getFencedCodeBlockRanges
        ["a \x7bx\x7d b".toList, "".toList, "```".toList, "q".toList, "```".toList]) := by
    rw [hf]
    simp [getJsxExpressionRanges, jsxAux, scanChars, findRangeContainingLine, lineAt,
      List.find?, List.takeWhile, List.drop]
  exact ⟨hmemf, hmemj, fencedJsxNoOverlap _ (2, 4) (0, 0) hmemf hmemj⟩


/-! ### Resolver properties (spec-modelled extent walk) -/

theorem blankL_out (doc : List Str) (j : Nat) (h : doc.length ≤ j) :
    blankL (lineAt doc j) = true := by
  rw [lineAt, List.getD_eq_default _ _ h]
  decide

theorem findRange_bounds (rs : List LineRange) (l : Nat) (r : LineRange)
    (h : findRangeContainingLine rs l = some r) : r.1 ≤ l ∧ l ≤ r.2 := by
  unfold findRangeContainingLine at h
  have := List.find?_some h
  simpa using this

theorem walkUp_props (doc : List Str) :
    ∀ j, walkUp doc j ≤ j ∧
      (∀ l, walkUp doc j ≤ l → l < j → blankL (lineAt doc l) = false) ∧
      (walkUp doc j = 0 ∨ blankL (lineAt doc (walkUp doc j - 1)) = true) := by
  intro j
  induction j with
  | zero => exact ⟨le_refl 0, fun l _ h2 => absurd h2 (by omega), Or.inl rfl⟩
  | succ k ih =>
    by_cases hb : blankL (lineAt doc k) = true
    · have hw : walkUp doc (k + 1) = k + 1 := by simp [walkUp, hb]
      rw [hw]
      refine ⟨le_refl _, fun l h1 h2 => absurd (by omega : (1:Nat) = 2) (by omega), Or.inr ?_⟩
      simpa using hb
    · rw [Bool.not_eq_true] at hb
      have hw : walkUp doc (k + 1) = walkUp doc k := by simp [walkUp, hb]
      rw [hw]
      obtain ⟨ih1, ih2, ih3⟩ := ih
      refine ⟨by omega, ?_, ih3⟩
      intro l h1 h2
      by_cases hlk : l < k
      · exact ih2 l h1 hlk
      · have hleq : l = k := by omega
        rw [hleq]
        exact hb

theorem walkDown_eq (doc : List Str) (maxL i : Nat) :
    walkDown doc maxL i =
      if i < maxL then
        (if blankL (lineAt doc (i + 1)) then i else walkDown doc maxL (i + 1))
      else i := by
  rw [walkDown.eq_def]
  rfl

theorem walkDown_ge (doc : List Str) (maxL : Nat) : ∀ i, i ≤ walkDown doc maxL i := by
  have H : ∀ n i, maxL - i ≤ n → i ≤ walkDown doc maxL i := by
    intro n
    induction n with
    | zero =>
      intro i hn
      rw [walkDown_eq]
      have hnot : ¬ i < maxL := by omega
      rw [if_neg hnot]
    | succ n ihn =>
      intro i hn
      rw [walkDown_eq]
      by_cases h : i < maxL
      · rw [if_pos h]
        by_cases hb : blankL (lineAt doc (i + 1)) = true
        · rw [if_pos hb]
        · rw [if_neg hb]
          have := ihn (i + 1) (by omega)
          omega
      · rw [if_neg h]
  intro i
  exact H (maxL - i) i (le_refl _)

theorem walkDown_props (doc : List Str) (maxL : Nat) :
    ∀ j, j ≤ maxL →
      walkDown doc maxL j ≤ maxL ∧
      (∀ l, j < l → l ≤ walkDown doc maxL j → blankL (lineAt doc l) = false) ∧
      (walkDown doc maxL j = maxL ∨ blankL (lineAt doc (walkDown doc maxL j + 1)) = true) := by
  have H : ∀ n j, maxL - j ≤ n → j ≤ maxL →
      walkDown doc maxL j ≤ maxL ∧
      (∀ l, j < l → l ≤ walkDown doc maxL j → blankL (lineAt doc l) = false) ∧
      (walkDown doc maxL j = maxL ∨ blankL (lineAt doc (walkDown doc maxL j + 1)) = true) := by
    intro n
    induction n with
    | zero =>
      intro j hn hj
      have hjm : j = maxL := by omega
      have hw : walkDown doc maxL j = j := by
        rw [walkDown_eq]
        have : ¬ j < maxL := by omega
        rw [if_neg this]
      rw [hw]
      exact ⟨hj, fun l h1 h2 => absurd (by omega : (1:Nat) = 2) (by omega), Or.inl hjm⟩
    | succ n ihn =>
      intro j hn hj
      by_cases hjm : j < maxL
      · by_cases hb : blankL (lineAt doc (j + 1)) = true
        · have hw : walkDown doc maxL j = j := by
            rw [walkDown_eq, if_pos hjm, if_pos hb]
          rw [hw]
          exact ⟨hj, fun l h1 h2 => absurd (by omega : (1:Nat) = 2) (by omega), Or.inr hb⟩
        · have hw : walkDown doc maxL j = walkDown doc maxL (j + 1) := by
            rw [walkDown_eq, if_pos hjm, if_neg hb]
          rw [Bool.not_eq_true] at hb
          obtain ⟨p1, p2, p3⟩ := ihn (j + 1) (by omega) (by omega)
          rw [hw]
          refine ⟨p1, ?_, p3⟩
          intro l h1 h2
          by_cases hl : l = j + 1
          · rw [hl]; exact hb
          · exact p2 l (by omega) h2
      · have hjm2 : j = maxL := by omega
        have hw : walkDown doc maxL j = j := by
          rw [walkDown_eq, if_neg hjm]
        rw [hw]
        exact ⟨hj, fun l h1 h2 => absurd (by omega : (1:Nat) = 2) (by omega), Or.inl hjm2⟩
  intro j hj
  exact H (maxL - j) j (le_refl _) hj

theorem unitEnd_ge (doc : List Str) (maxL i : Nat) : i ≤ unitEnd doc maxL i := by
  unfold unitEnd
  by_cases hb : blankL (lineAt doc i) = true
  · rw [if_pos hb]
  · rw [if_neg hb]
    exact walkDown_ge doc maxL i

theorem isUnitB_elim (doc : List Str) (s e : Nat) (h : isUnitB doc s e = true) :
    s ≤ e ∧ e + 1 ≤ doc.length ∧
    (∀ l, s ≤ l → l ≤ e → blankL (lineAt doc l) = false) ∧
    (s = 0 ∨ blankL (lineAt doc (s - 1)) = true) ∧
    (e = doc.length - 1 ∨ blankL (lineAt doc (e + 1)) = true) := by
  simp only [isUnitB, Bool.and_eq_true, decide_eq_true_eq, List.all_eq_true,
    Bool.or_eq_true, Bool.not_eq_true'] at h
  obtain ⟨⟨⟨⟨h1, h2⟩, h3⟩, h4⟩, h5⟩ := h
  refine ⟨h1, h2, ?_, ?_, ?_⟩
  · intro l hl1 hl2
    exact h3 l (List.mem_range'_1.mpr ⟨hl1, by omega⟩)
  · rcases h4 with h | h
    · exact Or.inl h
    · exact Or.inr h
  · rcases h5 with h | h
    · exact Or.inl h
    · exact Or.inr h

theorem unit_resolve_of_overlap (doc : List Str) (s e j : Nat)
    (hu : isUnitB doc s e = true)
    (hnbj : blankL (lineAt doc j) = false)
    (h1 : unitStart doc j ≤ e) (h2 : s ≤ unitEnd doc (doc.length - 1) j) :
    unitStart doc j = s ∧ unitEnd doc (doc.length - 1) j = e := by
  obtain ⟨hse, helen, hnb, hsb, heb⟩ := isUnitB_elim doc s e hu
  have hjlen : j < doc.length := by
    by_contra hc
    have hbl := blankL_out doc j (by omega)
    rw [hnbj] at hbl
    simp at hbl
  have hjm : j ≤ doc.length - 1 := by omega
  have hS : unitStart doc j = walkUp doc j := by simp [unitStart, hnbj]
  have hE : unitEnd doc (doc.length - 1) j = walkDown doc (doc.length - 1) j := by
    simp [unitEnd, hnbj]
  rw [hS] at h1 ⊢
  rw [hE] at h2 ⊢
  obtain ⟨hu1, hu2, hu3⟩ := walkUp_props doc j
  obtain ⟨hd2, hd3, hd4⟩ := walkDown_props doc (doc.length - 1) j hjm
  have hdge := walkDown_ge doc (doc.length - 1) j
  set S := walkUp doc j with hSdef
  set E := walkDown doc (doc.length - 1) j with hEdef
  have hblock : ∀ l, S ≤ l → l ≤ E → blankL (lineAt doc l) = false := by
    intro l ha hb
    rcases lt_trichotomy l j with hl | hl | hl
    · exact hu2 l ha hl
    · rw [hl]; exact hnbj
    · exact hd3 l hl hb
  have hstart : S = s := by
    rcases lt_trichotomy S s with h | h | h
    · rcases hsb with h0 | hb
      · omega
      · have hc := hblock (s - 1) (by omega) (by omega)
        rw [hc] at hb
        simp at hb
    · exact h
    · rcases hu3 with h0 | hb
      · omega
      · have hc := hnb (S - 1) (by omega) (by omega)
        rw [hc] at hb
        simp at hb
  have hend : E = e := by
    rcases lt_trichotomy E e with h | h | h
    · rcases hd4 with hm | hb
      · omega
      · have hc := hnb (E + 1) (by omega) (by omega)
        rw [hc] at hb
        simp at hb
    · exact h
    · rcases heb with hm | hb
      · omega
      · have hc := hblock (e + 1) (by omega) (by omega)
        rw [hc] at hb
        simp at hb
  exact ⟨hstart, hend⟩

/-! ### Planner loop lemmas -/

theorem planAux_isSome (doc : List Str) (rt : Nat → Nat → Str → Str) (fm : Option LineRange)
    (fenced jsx : List LineRange) (st : Settings) (hasRange : Bool) (startL endL maxL : Nat) :
    ∀ fuel i, endL + 1 ≤ i + fuel →
      (planAux doc rt fm fenced jsx st hasRange startL endL maxL fuel i).isSome = true := by
  intro fuel
  induction fuel with
  | zero =>
    intro i h
    have hend : endL < i := by omega
    simp [planAux, hend]
  | succ fuel ih =>
    intro i h
    by_cases hend : endL < i
    · simp [planAux, hend]
    · have hstep : ∀ i2, i + 1 ≤ i2 →
          (planAux doc rt fm fenced jsx st hasRange startL endL maxL fuel i2).isSome = true :=
        fun i2 hi2 => ih i2 (by omega)
      simp only [planAux]
      rw [if_neg hend]
      split
      · next hfm =>
        cases fm with
        | none => simp at hfm
        | some f =>
          have hfm2 : (decide (f.1 ≤ i) && decide (i ≤ f.2)) = true := hfm
          simp only [Bool.and_eq_true, decide_eq_true_eq] at hfm2
          exact hstep _ (by simp only [Option.getD_some]; omega)
      · split
        · next fr heq =>
          have hb := findRange_bounds fenced i fr heq
          exact hstep (fr.2 + 1) (by omega)
        · split
          · next jr heq2 =>
            have hb := findRange_bounds jsx i jr heq2
            exact hstep (jr.2 + 1) (by omega)
          · have hge := unitEnd_ge doc maxL i
            split
            · exact hstep (unitEnd doc maxL i + 1) (by omega)
            · split
              · simp
              · split
                · exact hstep (unitEnd doc maxL i + 1) (by omega)
                · split
                  · exact hstep (unitEnd doc maxL i + 1) (by omega)
                  · obtain ⟨es, hes⟩ :=
                      Option.isSome_iff_exists.mp (hstep (unitEnd doc maxL i + 1) (by omega))
                    rw [hes]
                    simp

theorem planAux_edits (doc : List Str) (rt : Nat → Nat → Str → Str) (fm : Option LineRange)
    (fenced jsx : List LineRange) (st : Settings) (hasRange : Bool) (startL endL maxL : Nat) :
    ∀ fuel i es, planAux doc rt fm fenced jsx st hasRange startL endL maxL fuel i = some es →
      ∀ ed ∈ es, ∃ j,
        ed.s = unitStart doc j ∧ ed.e = unitEnd doc maxL j ∧
        shouldSkipParagraph doc ed.s ed.e fenced jsx fm st = false ∧
        (hasRange = true → startL ≤ ed.s ∧ ed.e ≤ endL) := by
  intro fuel
  induction fuel with
  | zero =>
    intro i es hes ed hed
    by_cases hend : endL < i
    · simp only [planAux, if_pos hend, Option.some.injEq] at hes
      subst hes
      simp at hed
    · simp only [planAux, if_neg hend] at hes
      exact Option.noConfusion hes
  | succ fuel ih =>
    intro i es hes ed hed
    by_cases hend : endL < i
    · simp only [planAux, if_pos hend, Option.some.injEq] at hes
      subst hes
      simp at hed
    · simp only [planAux] at hes
      rw [if_neg hend] at hes
      split at hes
      · exact ih _ _ hes ed hed
      · split at hes
        · exact ih _ _ hes ed hed
        · split at hes
          · exact ih _ _ hes ed hed
          · split at hes
            · exact ih _ _ hes ed hed
            · split at hes
              · simp only [Option.some.injEq] at hes
                subst hes
                simp at hed
              · split at hes
                · exact ih _ _ hes ed hed
                · split at hes
                  · exact ih _ _ hes ed hed
                  · rename_i hfmn hfrn hjrn hc1 hc2 hc3 hsk
                    cases hrec : planAux doc rt fm fenced jsx st hasRange startL endL maxL fuel
                        (unitEnd doc maxL i + 1) with
                    | none =>
                      rw [hrec] at hes
                      simp at hes
                    | some es2 =>
                      rw [hrec] at hes
                      injection hes with hes2
                      subst hes2
                      split at hed
                      · rcases List.mem_cons.mp hed with hedh | hedt
                        · have hs : ed.s = unitStart doc i := by rw [hedh]
                          have he2 : ed.e = unitEnd doc maxL i := by rw [hedh]
                          refine ⟨i, hs, he2, ?_, ?_⟩
                          · rw [hs, he2]
                            simpa using hsk
                          · intro hr
                            rw [hs, he2]
                            rw [hr] at hc3
                            simp only [Bool.true_and, Bool.or_eq_true, decide_eq_true_eq,
                              not_or] at hc3
                            omega
                        · exact ih _ _ hrec ed hedt
                      · exact ih _ _ hrec ed hed

theorem planAuxGetD_edits (doc : List Str) (rt : Nat → Nat → Str → Str) (fm : Option LineRange)
    (fenced jsx : List LineRange) (st : Settings) (hasRange : Bool)
    (startL endL maxL fuel i0 : Nat) (ed : Edit)
    (hed : ed ∈ (planAux doc rt fm fenced jsx st hasRange startL endL maxL fuel i0).getD []) :
    ∃ j, ed.s = unitStart doc j ∧ ed.e = unitEnd doc maxL j ∧
      shouldSkipParagraph doc ed.s ed.e fenced jsx fm st = false ∧
      (hasRange = true → startL ≤ ed.s ∧ ed.e ≤ endL) := by
  cases hplan : planAux doc rt fm fenced jsx st hasRange startL endL maxL fuel i0 with
  | none =>
    rw [hplan] at hed
    simp at hed
  | some es =>
    rw [hplan] at hed
    simp only [Option.getD_some] at hed
    exact planAux_edits doc rt fm fenced jsx st hasRange startL endL maxL fuel i0 es hplan ed hed

theorem computeReflowEdits_edits (doc : List Str) (rt : Nat → Nat → Str → Str)
    (tr : Option LineRange) (st : Settings) :
    ∀ ed ∈ computeReflowEdits doc rt tr st,
      ∃ j, ed.s = unitStart doc j ∧ ed.e = unitEnd doc (doc.length - 1) j ∧
        shouldSkipParagraph doc ed.s ed.e (getFencedCodeBlockRanges doc)
          (getJsxExpressionRanges doc (getFencedCodeBlockRanges doc))
          (getFrontMatterRange doc) st = false ∧
        (∀ a b : Nat, tr = some (a, b) → a ≤ ed.s ∧ ed.e ≤ b) := by
  intro ed hed
  by_cases hdoc : doc.length = 0
  · simp [computeReflowEdits, hdoc] at hed
  · cases tr with
    | none =>
      simp only [computeReflowEdits, if_neg hdoc, Option.isSome_none, Bool.false_and] at hed
      rw [if_neg Bool.false_ne_true] at hed
      obtain ⟨j, h1, h2, h3, h4⟩ := planAuxGetD_edits _ _ _ _ _ _ _ _ _ _ _ _ ed hed
      refine ⟨j, h1, h2, h3, ?_⟩
      intro a b hab
      simp at hab
    | some r =>
      obtain ⟨a0, b0⟩ := r
      simp only [computeReflowEdits, if_neg hdoc, Option.isSome_some] at hed
      split at hed
      · simp at hed
      · obtain ⟨j, h1, h2, h3, h4⟩ := planAuxGetD_edits _ _ _ _ _ _ _ _ _ _ _ _ ed hed
        refine ⟨j, h1, h2, h3, ?_⟩
        intro a b hab
        have h5 := h4 rfl
        injection hab with hab2
        injection hab2 with ha hb
        subst ha
        subst hb
        simpa using h5

/-! ### Skip-trigger sufficiency and the planner claims -/

theorem ite_true_of_rest {c : Prop} [Decidable c] {b : Bool} (h : b = true) :
    (if c then true else b) = true := by
  split
  · rfl
  · exact h

theorem ite_true_of_hit {c : Prop} [Decidable c] (hc : c) (b : Bool) :
    (if c then true else b) = true := by
  rw [if_pos hc]

theorem shouldSkip_of_trigger (doc : List Str) (ls le : Nat) (fenced jsx : List LineRange)
    (fm : Option LineRange) (st : Settings)
    (h : paragraphHasAtxHeading doc ls le = true ∨ paragraphHasMdxImport doc ls le = true ∨
      paragraphHasFootnoteDef doc ls le = true ∨ paragraphHasMarkdownTable doc ls le = true ∨
      paragraphHasListLinkOnly doc ls le = true ∨
      (ls = le ∧ lineStartsWithTripleColon (lineAt doc ls) = true) ∨
      (ls = le ∧ lineIsXmlTagOnly (lineAt doc ls) = true)) :
    shouldSkipParagraph doc ls le fenced jsx fm st = true := by
  unfold shouldSkipParagraph
  rcases h with h | h | h | h | h | ⟨he, h⟩ | ⟨he, h⟩
  · exact ite_true_of_rest (ite_true_of_rest (ite_true_of_hit h _))
  · exact ite_true_of_rest (ite_true_of_rest (ite_true_of_rest (ite_true_of_hit h _)))
  · exact ite_true_of_rest (ite_true_of_rest (ite_true_of_rest (ite_true_of_rest
      (ite_true_of_hit h _))))
  · exact ite_true_of_rest (ite_true_of_rest (ite_true_of_rest (ite_true_of_rest
      (ite_true_of_rest (ite_true_of_hit h _)))))
  · exact ite_true_of_rest (ite_true_of_rest (ite_true_of_rest (ite_true_of_rest
      (ite_true_of_rest (ite_true_of_rest (ite_true_of_hit h _))))))
  · subst he
    exact ite_true_of_rest (ite_true_of_rest (ite_true_of_rest (ite_true_of_rest
      (ite_true_of_rest (ite_true_of_rest (ite_true_of_rest (ite_true_of_rest
      (ite_true_of_hit (by simp [h]) _))))))))
  · subst he
    exact ite_true_of_rest (ite_true_of_rest (ite_true_of_rest (ite_true_of_rest
      (ite_true_of_rest (ite_true_of_rest (ite_true_of_rest (ite_true_of_rest
      (ite_true_of_rest (ite_true_of_hit (by simp [h]) _)))))))))

theorem skipUnit_untouched (doc : List Str) (rt : Nat → Nat → Str → Str)
    (tr : Option LineRange) (st : Settings) (s e : Nat)
    (hu : isUnitB doc s e = true)
    (htrig : paragraphHasAtxHeading doc s e = true ∨ paragraphHasMdxImport doc s e = true ∨
      paragraphHasFootnoteDef doc s e = true ∨ paragraphHasMarkdownTable doc s e = true ∨
      paragraphHasListLinkOnly doc s e = true ∨
      (s = e ∧ lineStartsWithTripleColon (lineAt doc s) = true) ∨
      (s = e ∧ lineIsXmlTagOnly (lineAt doc s) = true)) :
    ∀ ed ∈ computeReflowEdits doc rt tr st, ed.e < s ∨ e < ed.s := by
  intro ed hed
  by_contra hcon
  push_neg at hcon
  obtain ⟨hc1, hc2⟩ := hcon
  obtain ⟨j, h1, h2, h3, _⟩ := computeReflowEdits_edits doc rt tr st ed hed
  obtain ⟨hse, helen, hnb, hsb, heb⟩ := isUnitB_elim doc s e hu
  by_cases hbj : blankL (lineAt doc j) = true
  · have hsj : unitStart doc j = j := by simp [unitStart, hbj]
    have hej : unitEnd doc (doc.length - 1) j = j := by simp [unitEnd, hbj]
    rw [hsj] at h1
    rw [hej] at h2
    have hfalse := hnb j (by omega) (by omega)
    rw [hfalse] at hbj
    exact Bool.noConfusion hbj
  · rw [Bool.not_eq_true] at hbj
    obtain ⟨hus, hue⟩ := unit_resolve_of_overlap doc s e j hu hbj (by omega) (by omega)
    rw [hus] at h1
    rw [hue] at h2
    rw [h1, h2] at h3
    have htrue := shouldSkip_of_trigger doc s e (getFencedCodeBlockRanges doc)
      (getJsxExpressionRanges doc (getFencedCodeBlockRanges doc)) (getFrontMatterRange doc) st
      htrig
    rw [h3] at htrue
    exact Bool.noConfusion htrue

/-- C6: each skip predicate is independently sufficient: if `[s, e]` is a
unit (a maximal block of non-blank lines) containing an ATX heading, an
MDX import, a Markdown table row or separator, a footnote/reference
definition, or a link-only list line, or consists of a single `:::`
line, then a full-document planning pass emits no edit touching any line
of `[s, e]` — for every reflow function and every configuration. -/
theorem skipTriggerUnitUntouched (doc : List Str) (rt : Nat → Nat → Str → Str) (st : Settings)
    (s e : Nat) (hu : isUnitB doc s e = true)
    (htrig : paragraphHasAtxHeading doc s e = true ∨ paragraphHasMdxImport doc s e = true ∨
      paragraphHasFootnoteDef doc s e = true ∨ paragraphHasMarkdownTable doc s e = true ∨
      paragraphHasListLinkOnly doc s e = true ∨
      (s = e ∧ lineStartsWithTripleColon (lineAt doc s) = true)) :
    ∀ ed ∈ computeReflowEdits doc rt none st, ed.e < s ∨ e < ed.s := by
  apply skipUnit_untouched doc rt none st s e hu
  tauto

theorem skipTriggerUnitUntouchedWitness :
    isUnitB ["# hi".toList] 0 0 = true ∧
    paragraphHasAtxHeading ["# hi".toList] 0 0 = true ∧
    ∀ ed ∈ computeReflowEdits ["# hi".toList] (fun _ _ _ => ['X']) none ⟨80, false, false⟩,
      ed.e < 0 ∨ 0 < ed.s :=
  ⟨by decide, by decide,
    skipTriggerUnitUntouched ["# hi".toList] (fun _ _ _ => ['X']) ⟨80, false, false⟩ 0 0
      (by decide) (Or.inl (by decide))⟩

/-- C8: range-restricted formatting passes never touch lines outside the
requested range: every edit emitted by `computeReflowEdits` for target
range `(a, b)` spans only lines of `[a, b]`. -/
theorem rangeRestrictedEdits (doc : List Str) (rt : Nat → Nat → Str → Str) (st : Settings)
    (a b : Nat) :
    ∀ ed ∈ computeReflowEdits doc rt (some (a, b)) st, a ≤ ed.s ∧ ed.e ≤ b := by
  intro ed hed
  obtain ⟨j, h1, h2, h3, h4⟩ := computeReflowEdits_edits doc rt (some (a, b)) st ed hed
  exact h4 a b rfl

theorem rangeRestrictedEditsWitness :
    (⟨0, 0, ['X']⟩ : Edit) ∈ computeReflowEdits ["hello".toList] (fun _ _ _ => ['X'])
        (some (0, 0)) ⟨80, false, false⟩ ∧
    (0 ≤ (⟨0, 0, ['X']⟩ : Edit).s ∧ (⟨0, 0, ['X']⟩ : Edit).e ≤ 0) := by
  have heval : computeReflowEdits ["hello".toList] (fun _ _ _ => ['X'])
      (some (0, 0)) ⟨80, false, false⟩ = [⟨0, 0, ['X']⟩] := by
    simp [computeReflowEdits, planAux, getFrontMatterRange, firstNonBlank, fmFindClose,
      getFencedCodeBlockRanges, fencedAux, fenceOpen, fenceClose, getJsxExpressionRanges,
      jsxAux, scanChars, findRangeContainingLine, unitStart, unitEnd, walkUp, walkDown,
      shouldSkipParagraph, paragraphHasAtxHeading, paragraphHasMdxImport,
      paragraphHasFootnoteDef, paragraphHasMarkdownTable, paragraphHasListLinkOnly,
      lineStartsWithTripleColon, lineIsXmlTagOnly, getFirstContentParagraphRange,
      skipBlankImports, originalTextOf, matchRe, Re.deriv, Re.nullable, Re.chr, Re.strLit,
      Re.opt, Re.plus, Re.anyc, Re.wsc, Re.cat, Re.upTo, Re.oneTo, mdxImportRe, tripleColonRe,
      xmlTagOnlyRe, htmlCommentOnlyRe, footnoteDefRe, listLinkOnlyRe, mdTableSeparatorRe,
      mdTableRowRe, atxHeadingRe, blankL, lineAt, trimWs, trimL, trimR, wsChar, nwChar,
      alphaChar, alnumDashChar, digitChar, rangeOverlapsAny, List.find?, List.takeWhile,
      List.dropWhile, List.range', List.intercalate]
  have hmem : (⟨0, 0, ['X']⟩ : Edit) ∈ computeReflowEdits ["hello".toList]
      (fun _ _ _ => ['X']) (some (0, 0)) ⟨80, false, false⟩ := by
    rw [heval]
    exact List.mem_singleton.mpr rfl
  exact ⟨hmem, rangeRestrictedEdits ["hello".toList] (fun _ _ _ => ['X']) ⟨80, false, false⟩
    0 0 ⟨0, 0, ['X']⟩ hmem⟩

/-- C9: the Edit Planner terminates on every document and requested
range: the cursor strictly increases on every loop iteration, so with
the fuel budget `computeReflowEdits` supplies (one unit of fuel per
remaining line of the interval) the loop always returns a result. -/
theorem plannerTerminates (doc : List Str) (rt : Nat → Nat → Str → Str) (fm : Option LineRange)
    (fenced jsx : List LineRange) (st : Settings) (hasRange : Bool)
    (startL endL maxL i0 : Nat) :
    (planAux doc rt fm fenced jsx st hasRange startL endL maxL (endL + 1 - i0) i0).isSome =
      true :=
  planAux_isSome doc rt fm fenced jsx st hasRange startL endL maxL (endL + 1 - i0) i0 (by omega)

/-- C10 (implicit): the batch formatting passes — full-document and
range alike — skip any resolved unit that is a single line consisting
solely of an opening or closing XML/HTML tag or solely of an HTML
comment: for every target range, no emitted edit touches such a line. -/
theorem xmlSingleLineUnitUntouched (doc : List Str) (rt : Nat → Nat → Str → Str)
    (tr : Option LineRange) (st : Settings) (l : Nat)
    (hu : isUnitB doc l l = true)
    (hx : lineIsXmlTagOnly (lineAt doc l) = true) :
    ∀ ed ∈ computeReflowEdits doc rt tr st, ed.e < l ∨ l < ed.s :=
  skipUnit_untouched doc rt tr st l l hu
    (Or.inr (Or.inr (Or.inr (Or.inr (Or.inr (Or.inr ⟨rfl, hx⟩))))))

theorem xmlSingleLineUnitUntouchedWitness :
    isUnitB ["<div>".toList] 0 0 = true ∧
    lineIsXmlTagOnly (lineAt ["<div>".toList] 0) = true ∧
    ∀ ed ∈ computeReflowEdits ["<div>".toList] (fun _ _ _ => ['X']) (some (0, 0))
        ⟨80, false, false⟩, ed.e < 0 ∨ 0 < ed.s :=
  ⟨by decide, by decide,
    xmlSingleLineUnitUntouched ["<div>".toList] (fun _ _ _ => ['X']) (some (0, 0))
      ⟨80, false, false⟩ 0 (by decide) (by decide)⟩

end Reflow
